import Mathlib

/-!
Verification of the playlist ingestion & channel-deduplication engine of the
IPTV front-end (M3U parsing with quality-variant grouping), together with the
EPG matching helpers it collaborates with.

The development is a shallow embedding of the TypeScript sources:
  * `src/services/m3uService.ts`   — `parseChannelInfo`, `extractAttribute`,
    `generateFallbackLogo`, `parseM3U`
  * `src/unnamed/part_003`         — `isSameMatch`
  * `src/components/VideoPlayer.tsx` / `src/unnamed/part_002`
                                   — the on-screen progress computation
  * `src/services/epgService.ts` is not part of the sources; the two
    program-time resolver functions are modelled from the specification.

Strings are embedded as lists of characters (`Str`).  JavaScript regular
expressions used by the sources are literal alternations, which are embedded
as explicit scanning functions with the exact token lists, word-boundary
semantics (`\b` over `[A-Za-z0-9_]`), leftmost-first alternative order and
global non-overlapping matching of the originals.  JavaScript number
behaviour needed by the progress computation is embedded exactly over `ℚ`
extended with `NaN`/`±Infinity`.
-/

namespace IPTV

/-! ### Definitions: the embedded program -/

/-- Strings of the embedded programs: lists of characters. -/
abbrev Str := List Char

/-- Embed a Lean string literal. -/
def str (s : String) : Str := s.data

/-- JavaScript `\w` word characters: `[A-Za-z0-9_]` (as used by `\b`). -/
def isWordChar (c : Char) : Bool :=
  ('a' ≤ c && c ≤ 'z') || ('A' ≤ c && c ≤ 'Z') || ('0' ≤ c && c ≤ '9') || c == '_'

/-- JavaScript whitespace (`\s`, also the set trimmed by `String.trim`):
space, tab, line feed, vertical tab, form feed, carriage return, NBSP, BOM. -/
def isSpaceJS (c : Char) : Bool :=
  c == ' ' || c == '\t' || c == '\n' || c == '\x0b' ||
  c == '\x0c' || c == '\r' || c == ' ' || c == '﻿'

/-- ASCII lower-casing of one character (JavaScript `toLowerCase` restricted
to the ASCII range; identity elsewhere). -/
def lowerChar (c : Char) : Char :=
  if 'A' ≤ c && c ≤ 'Z' then Char.ofNat (c.toNat + 32) else c

/-- ASCII upper-casing of one character (JavaScript `toUpperCase` restricted
to the ASCII range; identity elsewhere). -/
def upperChar (c : Char) : Char :=
  if 'a' ≤ c && c ≤ 'z' then Char.ofNat (c.toNat - 32) else c

/-- `String.prototype.toLowerCase`. -/
def lowerStr (s : Str) : Str := s.map lowerChar

/-- `String.prototype.toUpperCase`. -/
def upperStr (s : Str) : Str := s.map upperChar

/-- `String.prototype.trim`. -/
def trimJS (s : Str) : Str :=
  ((s.dropWhile isSpaceJS).reverse.dropWhile isSpaceJS).reverse

/-- One step of `rawName.normalize('NFKC')`.  The source relies on NFKC only
to fold stylized quality glyphs to ASCII ("Converts characters like ᴴᴰ to HD,
⁺ to +"); NFKC is the identity on ASCII, and those compatibility singletons
map character-wise. -/
def nfkcChar (c : Char) : Char :=
  if c = 'ᴴ' then 'H' else if c = 'ᴰ' then 'D' else if c = '⁺' then '+' else c

/-- `rawName.normalize('NFKC')` on the character classes the source uses. -/
def nfkc (s : Str) : Str := s.map nfkcChar

/-- The quality/region token alternation of `parseChannelInfo`'s
`stripRegex`, in the exact source order (alternatives are tried
left to right). -/
def stripTokens : List Str :=
  [str "4k", str "8k", str "uhd", str "lq", str "hd", str "fhd", str "hq",
   str "sd", str "hevc", str "h265", str "h264", str "avc", str "1080p",
   str "720p", str "50fps", str "60fps", str "vip", str "premium",
   str "backup", str "xtra", str "xstra", str "extra", str "exstra",
   str "se", str "swe", str "sweden", str "no", str "nor", str "norway",
   str "dk", str "dan", str "denmark", str "fi", str "fin", str "finland",
   str "en", str "english", str "ar", str "arab", str "arabic", str "tr",
   str "turkey", str "france", str "fr", str "french", str "ultra",
   str "italy", str "it", str "italian", str "guhd", str "afc", str "raw",
   str "720", str "480", str "hr", str "rs", str "eu", str "europe",
   str "scandinavia", str "nordic", str "int"]

/-- Case-insensitive literal prefix test: `tok` (given lower-case) is a
prefix of `s` up to ASCII case. -/
def tokPrefixCI : Str → Str → Bool
  | [], _ => true
  | _ :: _, [] => false
  | t :: ts, c :: cs => t == lowerChar c && tokPrefixCI ts cs

/-- A word boundary holds before the current position given the previous
character (`none` at the start of the string); the token itself always
starts with a word character, so only the left side needs checking. -/
def boundaryOK : Option Char → Bool
  | none => true
  | some c => !isWordChar c

/-- `\b` after a token: end of string or a non-word character. -/
def rightBoundary : Str → Bool
  | [] => true
  | c :: _ => !isWordChar c

/-- First alternative of the token list matching at the head of `s`
(with its trailing `\b`); returns the matched length. -/
def firstTokLen (toks : List Str) (s : Str) : Option Nat :=
  match toks with
  | [] => none
  | t :: ts =>
    if tokPrefixCI t s && rightBoundary (s.drop t.length) then some t.length
    else firstTokLen ts s

/-- The match attempt of `stripRegex` at the current position: a token match
is possible only after a word boundary; alternatives are tried in source
order.  Returns the matched length. -/
def tokAt (prev : Option Char) (s : Str) : Option Nat :=
  if boundaryOK prev then firstTokLen stripTokens s else none

/-- Global scan of `stripRegex` over a string: returns the list of matched
substrings (in order, as they occur in the input) and the input with the
matches removed — the combination of `normalizedName.match(stripRegex)` and
`normalizedName.replace(stripRegex, '')`.  `prev` is the character just
before the current position (`none` at the start); `skip` counts characters
still to consume from a match already emitted (the scanner resumes after the
end of each match, as a `g`-flagged regex does). -/
def stripGo (prev : Option Char) (skip : Nat) (s : Str) : List Str × Str :=
  match skip, s with
  | _, [] => ([], [])
  | Nat.succ k, c :: rest => stripGo (some c) k rest
  | 0, c :: rest =>
    match tokAt prev (c :: rest) with
    | some k =>
      let m := (c :: rest).take k
      let pr := stripGo (some c) (k - 1) rest
      (m :: pr.1, pr.2)
    | none =>
      let pr := stripGo (some c) 0 rest
      (pr.1, c :: pr.2)

/-- `normalizedName.match(stripRegex)`: the matched tokens, in order. -/
def stripMatches (s : Str) : List Str := (stripGo none 0 s).1

/-- `normalizedName.replace(stripRegex, '')`. -/
def stripRemove (s : Str) : Str := (stripGo none 0 s).2

/-- `.replace(/[()\[\]|]/g, '')`. -/
def dropBrackets (s : Str) : Str :=
  s.filter (fun c => !(c == '(' || c == ')' || c == '[' || c == ']' || c == '|'))

/-- `.replace(/^[\s\W]+/, '')` — every `\s` character is also `\W`, so this
removes the leading run of non-word characters. -/
def dropLeadingNonWord (s : Str) : Str :=
  s.dropWhile (fun c => !isWordChar c)

/-- `.replace(/\s+/g, ' ')`: every maximal whitespace run becomes one space.
`inRun` records whether the previous character was whitespace. -/
def collapseGo (inRun : Bool) (s : Str) : Str :=
  match s with
  | [] => []
  | c :: rest =>
    if isSpaceJS c then
      if inRun then collapseGo true rest else ' ' :: collapseGo true rest
    else c :: collapseGo false rest

/-- `.replace(/\s+/g, ' ')`. -/
def collapseWs (s : Str) : Str := collapseGo false s

/-- The cleanup pipeline of `parseChannelInfo` applied after token removal:
brackets/pipes out, leading separators out, whitespace collapsed, trimmed. -/
def cleanupName (s : Str) : Str :=
  trimJS (collapseWs (dropLeadingNonWord (dropBrackets s)))

/-- `parseChannelInfo(rawName)` from `src/services/m3uService.ts`:
returns `(baseName, quality)`. -/
def parseChannelInfo (rawName : Str) : Str × Str :=
  let normalizedName := nfkc rawName
  let ms := stripMatches normalizedName
  let quality :=
    match ms.getLast? with
    | some m => upperStr m
    | none => str "SD"
  let baseName := cleanupName (stripRemove normalizedName)
  (if baseName = [] then trimJS rawName else baseName, quality)

/-! ## `extractAttribute` -/

/-- JavaScript truthiness for an optional string: `null`/`undefined` and the
empty string are falsy. -/
def truthyS : Option Str → Bool
  | some (_ :: _) => true
  | _ => false

/-- JavaScript `a || b` on nullable strings. -/
def jsOr (a b : Option Str) : Option Str := if truthyS a then a else b

/-- Case-insensitive prefix test against a lower-case pattern (the `i` flag
of `extractAttribute`'s regex; the pattern is the key plus `=`). -/
def patPrefixCI : Str → Str → Bool
  | [], _ => true
  | _ :: _, [] => false
  | p :: ps, c :: cs => p == lowerChar c && patPrefixCI ps cs

/-- Find the first (leftmost) case-insensitive occurrence of `pat` in `s`
and return the remainder of `s` after it. -/
def findAfterCI (pat : Str) (s : Str) : Option Str :=
  if patPrefixCI pat s then some (s.drop pat.length)
  else
    match s with
    | [] => none
    | _ :: rest => findAfterCI pat rest

/-- `extractAttribute(line, key)` from `src/services/m3uService.ts`: the
regex `` `${key}=("([^"]*)"|'([^']*)'|([^\s,]*))` `` with the `i` flag.  The
bare alternative can always match (possibly empty), so the regex matches at
the first occurrence of `key=`; a quoted alternative applies only when its
closing quote exists, otherwise matching falls through to the bare token. -/
def extractAttribute (line : Str) (key : Str) : Option Str :=
  match findAfterCI (key ++ [Char.ofNat 61]) line with
  | none => none
  | some rest =>
    let bare := rest.takeWhile (fun c => !isSpaceJS c && !(c == ','))
    let captured :=
      match rest with
      | '"' :: r2 => if r2.contains '"' then r2.takeWhile (fun c => !(c == '"')) else bare
      | '\'' :: r2 => if r2.contains '\'' then r2.takeWhile (fun c => !(c == '\'')) else bare
      | _ => bare
    some (trimJS captured)

/-! ## `generateFallbackLogo` -/

/-- The alternation `(HD|FHD|4K|UHD|HEVC|RAW)` of `generateFallbackLogo`
(no word boundaries), in source order. -/
def logoTokens : List Str :=
  [str "hd", str "fhd", str "4k", str "uhd", str "hevc", str "raw"]

/-- First alternative of `logoTokens` matching at the head of `s`
(case-insensitive, no boundary requirement); returns the matched length. -/
def firstLogoTokLen (toks : List Str) (s : Str) : Option Nat :=
  match toks with
  | [] => none
  | t :: ts => if tokPrefixCI t s then some t.length else firstLogoTokLen ts s

/-- `.replace(/(HD|FHD|4K|UHD|HEVC|RAW)/gi, '')`. -/
def removeLogoToks (skip : Nat) (s : Str) : Str :=
  match skip, s with
  | _, [] => []
  | Nat.succ k, _ :: rest => removeLogoToks k rest
  | 0, c :: rest =>
    match firstLogoTokLen logoTokens (c :: rest) with
    | some k => removeLogoToks (k - 1) rest
    | none => c :: removeLogoToks 0 rest

/-- Is `c` an ASCII upper-case letter (`[A-Z]`)? -/
def isUpperAlpha (c : Char) : Bool := 'A' ≤ c && c ≤ 'Z'

/-- Try `^[A-Z]{k}\s*[-|]\s*` for a fixed `k`; returns the remainder. -/
def tryPrefixCode (k : Nat) (s : Str) : Option Str :=
  let ups := s.take k
  if ups.length = k && ups.all isUpperAlpha then
    let r1 := (s.drop k).dropWhile isSpaceJS
    match r1 with
    | '-' :: r2 => some (r2.dropWhile isSpaceJS)
    | '|' :: r2 => some (r2.dropWhile isSpaceJS)
    | _ => none
  else none

/-- `.replace(/^([A-Z]{2,3}\s*[-|]\s*)/, '')` — the greedy `{2,3}` tries
three letters first, then two. -/
def dropPrefixCode (s : Str) : Str :=
  match tryPrefixCode 3 s with
  | some r => r
  | none =>
    match tryPrefixCode 2 s with
    | some r => r
    | none => s

/-- Characters `encodeURIComponent` leaves unescaped. -/
def uriUnreserved (c : Char) : Bool :=
  ('A' ≤ c && c ≤ 'Z') || ('a' ≤ c && c ≤ 'z') || ('0' ≤ c && c ≤ '9') ||
  c == '-' || c == '_' || c == '.' || c == '!' || c == '~' || c == '*' ||
  c == '\'' || c == '(' || c == ')'

/-- Upper-case hexadecimal digit. -/
def hexDigit (n : Nat) : Char :=
  if n < 10 then Char.ofNat (48 + n) else Char.ofNat (65 + (n - 10))

/-- Percent-encoding of one byte. -/
def pctByte (b : Nat) : Str := ['%', hexDigit (b / 16), hexDigit (b % 16)]

/-- UTF-8 bytes of one character. -/
def utf8Bytes (c : Char) : List Nat :=
  let n := c.toNat
  if n < 128 then [n]
  else if n < 2048 then [192 + n / 64, 128 + n % 64]
  else if n < 65536 then [224 + n / 4096, 128 + (n / 64) % 64, 128 + n % 64]
  else [240 + n / 262144, 128 + (n / 4096) % 64, 128 + (n / 64) % 64, 128 + n % 64]

/-- `encodeURIComponent`. -/
def encodeURIComponent (s : Str) : Str :=
  s.flatMap (fun c =>
    if uriUnreserved c then [c] else (utf8Bytes c).flatMap pctByte)

/-- `generateFallbackLogo(name)` from `src/services/m3uService.ts`. -/
def generateFallbackLogo (name : Str) : Str :=
  let cleanName := trimJS (dropPrefixCode (removeLogoToks 0 name))
  str "https://ui-avatars.com/api/?name=" ++ encodeURIComponent cleanName ++
    str "&background=1f2937&color=fff&size=200&font-size=0.4&bold=true&length=2"

/-! ## Data model (`src/types.ts`) -/

/-- `StreamVariant`: one physical encode of a logical channel. -/
structure MStreamVariant where
  quality : Str
  url : Str
deriving DecidableEq

/-- `Channel`.  The source fills `id` with a fresh UUID
(`generateUUID()`, randomness from the environment); the embedding keeps it
opaque as the creation index, which no claim inspects for its value. -/
structure MChannel where
  id : Nat
  name : Str
  group : Str
  logo : Str
  url : Str
  tvgId : Option Str
  streams : Option (List MStreamVariant)
deriving DecidableEq

/-- `ChannelGroup`. -/
structure MChannelGroup where
  title : Str
  channels : List MChannel
deriving DecidableEq

/-- `Category` (`'Fotboll'` / `'Kanaler'`).  `Option Category` models the
optional `category?: string` argument — `none` covers both `undefined` and
any string other than the two enum values. -/
inductive MCategory where
  | FOTBOLL
  | KANALER
deriving DecidableEq

/-- Result shape of `parseM3U`. -/
structure MParseResult where
  groups : List MChannelGroup
  epgUrl : Option Str
deriving DecidableEq

/-! ## `parseM3U` -/

/-- The pending descriptor built from an `#EXTINF:` line
(the source's `currentChannel`; present iff `currentChannel.name` is set,
which the source guarantees by falling back to `'Unknown Channel'`). -/
structure PendingChannel where
  name : Str
  group : Str
  logo : Option Str
  tvgId : Option Str
deriving DecidableEq

/-- Parser state threaded through the line loop of `parseM3U`.  Channels
are stored once, in creation order, each knowing its group; the JS
`groups: Record<string, Channel[]>` is recovered from this list (per-group
order is creation order, exactly as `push` builds it), which also captures
the aliasing of the JS `globalChannelMap` into the group lists. -/
structure ParseState where
  channels : List MChannel
  keyMap : List (Str × Nat)
  pending : Option PendingChannel
  counter : Nat
deriving DecidableEq

/-- `globalChannelMap.get` / `.has`: the key map only ever receives fresh
keys, so first match is exact. -/
def lookupKey : List (Str × Nat) → Str → Option Nat
  | [], _ => none
  | (k, i) :: rest, key => if k = key then some i else lookupKey rest key

/-- The text after the last comma of the line (`lastIndexOf(',')` plus
`substring`); the empty string when the line has no comma. -/
def afterLastComma (t : Str) : Str :=
  if t.contains ',' then (t.reverse.takeWhile (fun c => !(c == ','))).reverse
  else []

/-- Build the pending descriptor from a trimmed `#EXTINF:` line. -/
def parseExtinf (t : Str) : PendingChannel :=
  let rawName0 := trimJS (afterLastComma t)
  let groupTitleA := extractAttribute t (str "group-title")
  let groupTitle := if truthyS groupTitleA then groupTitleA.getD [] else str "Uncategorized"
  let tvgLogo := jsOr (extractAttribute t (str "tvg-logo")) (extractAttribute t (str "logo"))
  let tvgName := extractAttribute t (str "tvg-name")
  let tvgId := extractAttribute t (str "tvg-id")
  let rawName1 := if rawName0 = [] && truthyS tvgName then tvgName.getD [] else rawName0
  let rawName := if rawName1 = [] then str "Unknown Channel" else rawName1
  { name := rawName
    group := groupTitle
    logo := if truthyS tvgLogo then tvgLogo else none
    tvgId := if truthyS tvgId then tvgId else none }

/-- `shouldGroup`: always for `Fotboll`; for `Kanaler` only when the running
1-based entry index lies in the inclusive window 115–248; never otherwise
(in particular with no category hint). -/
def shouldGroupFn (cat : Option MCategory) (idx : Nat) : Bool :=
  match cat with
  | some MCategory.FOTBOLL => true
  | some MCategory.KANALER => 115 ≤ idx && idx ≤ 248
  | none => false

/-- Used only when the key map invariant is broken; never reached. -/
def dummyChannel : MChannel :=
  { id := 0, name := [], group := [], logo := [], url := [], tvgId := none, streams := none }

/-- Processing of one completed entry (a URL line with a pending
descriptor): the body of the `else`-branch of `parseM3U`'s line loop. -/
def processEntry (cat : Option MCategory) (st : ParseState) (pc : PendingChannel)
    (url : Str) : ParseState :=
  let counter := st.counter + 1
  let rawName := pc.name
  let groupName := if pc.group = [] then str "Uncategorized" else pc.group
  let logo := match pc.logo with | some l => l | none => generateFallbackLogo rawName
  let info := parseChannelInfo rawName
  let baseName := info.1
  let quality := info.2
  let sg := shouldGroupFn cat counter
  let mapKey := lowerStr baseName
  match lookupKey st.keyMap mapKey, sg with
  | some idx, true =>
    let ch := st.channels.getD idx dummyChannel
    let newStreams : List MStreamVariant :=
      match ch.streams with
      | none => [⟨str "Default", ch.url⟩, ⟨quality, url⟩]
      | some l => l ++ [⟨quality, url⟩]
    { channels := st.channels.set idx { ch with streams := some newStreams }
      keyMap := st.keyMap
      pending := none
      counter := counter }
  | _, _ =>
    let newCh : MChannel :=
      { id := st.channels.length
        name := if sg then baseName else rawName
        group := groupName
        logo := logo
        url := url
        tvgId := pc.tvgId
        streams := some [⟨if sg then quality else str "Default", url⟩] }
    { channels := st.channels ++ [newCh]
      keyMap := if sg then (mapKey, st.channels.length) :: st.keyMap else st.keyMap
      pending := none
      counter := counter }

/-- One iteration of `parseM3U`'s `lines.forEach` loop. -/
def stepLine (cat : Option MCategory) (st : ParseState) (line : Str) : ParseState :=
  let t := trimJS line
  if t = [] then st
  else if (str "#EXTINF:").isPrefixOf t then
    { st with pending := some (parseExtinf t) }
  else if (str "#").isPrefixOf t then st
  else
    match st.pending with
    | some pc => processEntry cat st pc t
    | none => st

/-- The initial parser state. -/
def initState : ParseState := { channels := [], keyMap := [], pending := none, counter := 0 }

/-- Run the line loop. -/
def parseLines (cat : Option MCategory) (lines : List Str) : ParseState :=
  lines.foldl (stepLine cat) initState

/-- `content.split('\n')`. -/
def splitNL : Str → List Str
  | [] => [[]]
  | c :: rest =>
    match splitNL rest with
    | [] => [[c]]
    | h :: t => if c = '\n' then [] :: h :: t else (c :: h) :: t

/-- The EPG-URL scan over the first five lines: assignments happen on each
`#EXTM3U` line; the loop breaks as soon as the assigned value is truthy. -/
def epgScan (lines : List Str) (acc : Option Str) : Option Str :=
  match lines with
  | [] => acc
  | l :: rest =>
    let t := trimJS l
    if (str "#EXTM3U").isPrefixOf t then
      let e := jsOr (extractAttribute t (str "url-tvg")) (extractAttribute t (str "x-tvg-url"))
      if truthyS e then e else epgScan rest e
    else epgScan rest acc

/-- Keys of the JS `groups` record in insertion order. -/
def dedupKeys (l : List Str) : List Str :=
  l.foldl (fun acc g => if acc.contains g then acc else acc ++ [g]) []

/-- Lexicographic order on UTF-16 code units — the default
`Array.prototype.sort` comparator on strings. -/
def lexLt : Str → Str → Bool
  | [], [] => false
  | [], _ :: _ => true
  | _ :: _, [] => false
  | a :: as_, b :: bs =>
    if a.toNat < b.toNat then true
    else if b.toNat < a.toNat then false
    else lexLt as_ bs

/-- Insertion sort with the JS string comparator (titles are distinct, so
any correct sort yields the same list as `Object.keys(groups).sort()`). -/
def insertSorted (x : Str) : List Str → List Str
  | [] => [x]
  | y :: ys => if lexLt x y then x :: y :: ys else y :: insertSorted x ys

/-- `Object.keys(groups).sort()`. -/
def sortStr (l : List Str) : List Str := l.foldr insertSorted []

/-- Rebuild the sorted group list from the channels in creation order. -/
def buildGroups (channels : List MChannel) : List MChannelGroup :=
  let titles := sortStr (dedupKeys (channels.map (fun c => c.group)))
  titles.map (fun t => { title := t, channels := channels.filter (fun c => c.group = t) })

/-- `parseM3U(content, category)` from `src/services/m3uService.ts`. -/
def parseM3U (content : Str) (cat : Option MCategory) : MParseResult :=
  let lines := splitNL content
  let epgUrl := epgScan (lines.take 5) none
  let fin := parseLines cat lines
  { groups := buildGroups fin.channels, epgUrl := epgUrl }

/-! ## Concrete playlists for the dedup / windowing claims -/

/-- Decimal digits of a number, as characters. -/
def natDigits (n : Nat) : Str := Nat.toDigits 10 n

/-- One playlist entry: metadata line plus URL line. -/
def mkEntry (name url : Str) : List Str := [str "#EXTINF:-1," ++ name, url]

/-- Filler entry number `n`: a channel `C<n>` with stream `u<n>` whose name
contains no strippable token and collides with nothing. -/
def fillerEntry (n : Nat) : List Str := mkEntry ('C' :: natDigits n) ('u' :: natDigits n)

/-- The two-entry Sky Sports playlist of the dedup-correctness claim. -/
def skyContent : Str :=
  str "#EXTINF:-1,Sky Sports FHD\nhttp://u1\n#EXTINF:-1,Sky Sports HD\nhttp://u2"

/-- 200 entries; the base name `Dup` appears at running positions 50
(`Dup FHD`) and 200 (`Dup HD`), outside resp. inside the 115–248 window. -/
def linesA : List Str :=
  ((List.range 200).map (fun i =>
    let n := i + 1
    if n = 50 then mkEntry (str "Dup FHD") (str "u50")
    else if n = 200 then mkEntry (str "Dup HD") (str "u200")
    else fillerEntry n)).flatten

/-- The playlist text with duplicates at positions 50 and 200. -/
def contentA : Str := List.intercalate ['\n'] linesA

/-- 200 entries; the base name `Dup` appears at running positions 120
(`Dup FHD`) and 200 (`Dup HD`), both inside the 115–248 window. -/
def linesB : List Str :=
  ((List.range 200).map (fun i =>
    let n := i + 1
    if n = 120 then mkEntry (str "Dup FHD") (str "u120")
    else if n = 200 then mkEntry (str "Dup HD") (str "u200")
    else fillerEntry n)).flatten

/-- The playlist text with duplicates at positions 120 and 200. -/
def contentB : Str := List.intercalate ['\n'] linesB

/-- The channels of a group whose display name starts with `Dup`, with
their stream variants — a single-pass report used to observe the duplicate
channels inside a 200-entry parse. -/
def dupReport (g : MChannelGroup) : List (Str × Option (List MStreamVariant)) :=
  g.channels.foldl
    (fun acc c => if (str "Dup").isPrefixOf c.name then acc ++ [(c.name, c.streams)] else acc) []

/-- A channel that carries exactly the one stream variant it was created
with (i.e. it was never a merge target). -/
def singleVariant (c : MChannel) : Prop := ∃ v, c.streams = some [v]

/-- Per-group observation: title, channel count, and the `Dup`-named
channels with their stream variants. -/
structure GroupSummary where
  title : Str
  count : Nat
  dups : List (Str × Option (List MStreamVariant))
deriving DecidableEq

/-- Single-pass computation of a `GroupSummary`. -/
def groupSummary (g : MChannelGroup) : GroupSummary :=
  let p := g.channels.foldl
    (fun acc c =>
      (acc.1 + 1,
       if (str "Dup").isPrefixOf c.name then acc.2 ++ [(c.name, c.streams)] else acc.2))
    (0, [])
  { title := g.title, count := p.1, dups := p.2 }

/-! ## `isSameMatch` (src/unnamed/part_003) -/

/-- Anchored match of the separator regex `/\s+(?:vs|v)\s+/` at the head of
`s` (greedy `\s+` runs; alternative `vs` before `v`; the lone `v` needs
whitespace right after it).  Returns the total matched length. -/
def sepAt (s : Str) : Option Nat :=
  let w := (s.takeWhile isSpaceJS).length
  if w = 0 then none
  else
    match s.drop w with
    | 'v' :: 's' :: r2 =>
      let w2 := (r2.takeWhile isSpaceJS).length
      if w2 = 0 then none else some (w + 2 + w2)
    | 'v' :: r1 =>
      let w2 := (r1.takeWhile isSpaceJS).length
      if w2 = 0 then none else some (w + 1 + w2)
    | _ => none

/-- `normAlert.split(/\s+(?:vs|v)\s+/)`: fragments between separator
matches, scanning left to right; `skip` consumes the remainder of a match,
`acc` is the reversed current fragment. -/
def splitVsVGo (skip : Nat) (acc : Str) : Str → List Str
  | [] => [acc.reverse]
  | c :: rest =>
    match skip with
    | Nat.succ k => splitVsVGo k acc rest
    | 0 =>
      match sepAt (c :: rest) with
      | some k => acc.reverse :: splitVsVGo (k - 1) [] rest
      | none => splitVsVGo 0 (c :: acc) rest

/-- `String.prototype.split` on the `vs`/`v` separator regex. -/
def splitVsV (s : Str) : List Str := splitVsVGo 0 [] s

/-- `s.includes(t)`. -/
def includesJS : Str → Str → Bool
  | [], t => t.isPrefixOf []
  | c :: rest, t => t.isPrefixOf (c :: rest) || includesJS rest t

/-- `isSameMatch(epgTitle, alertTitle)` from `src/unnamed/part_003`
(spoiler-protection fixture matching). -/
def isSameMatch (epgTitle : Option Str) (alertTitle : Str) : Bool :=
  match epgTitle with
  | none => false
  | some e =>
    if e = [] || alertTitle = [] then false
    else
      let normEpg := lowerStr e
      let normAlert := lowerStr alertTitle
      let teams := splitVsV normAlert
      if teams.length < 2 then false
      else teams.all (fun team => includesJS normEpg (trimJS team))

/-! ## Program-Time Resolver -/

/-- `EPGProgram` (from `src/types.ts`): instants are epoch milliseconds,
embedded as integers. -/
structure MEPGProgram where
  id : Str
  title : Str
  description : Str
  startTime : Int
  endTime : Int
deriving DecidableEq

/-- Modelled from the spec: `getCurrentProgram` of `src/services/epgService.ts`
(the file is absent from the sources; only its callers are present).  "Current
program = the single entry whose [start, end) interval contains `now`; if the
source guide has overlapping entries, ties are broken by preferring the entry
with the latest start...  Absence of any containing interval yields null."
`now` is passed explicitly. -/
def getCurrentProgram (progs : List MEPGProgram) (now : Int) : Option MEPGProgram :=
  progs.foldl
    (fun acc p =>
      if p.startTime ≤ now ∧ now < p.endTime then
        match acc with
        | none => some p
        | some q => if q.startTime < p.startTime then some p else acc
      else acc)
    none

/-- Modelled from the spec: `getNextProgram` of `src/services/epgService.ts`
(the file is absent from the sources).  "Next program = the entry with the
smallest start instant that is still ≥ `now` (strictly after, if an entry
starts exactly at `now` it is 'current', not 'next').  Absence yields null." -/
def getNextProgram (progs : List MEPGProgram) (now : Int) : Option MEPGProgram :=
  progs.foldl
    (fun acc p =>
      if now < p.startTime then
        match acc with
        | none => some p
        | some q => if p.startTime < q.startTime then some p else acc
      else acc)
    none

/-- The 10:00–11:00 boundary program of the resolver claim, with instants
as epoch minutes times 60000 ms. -/
def prog10to11 : MEPGProgram :=
  { id := str "ch", title := str "Morning Show", description := str "",
    startTime := 36000000, endTime := 39600000 }

/-! ## C8 — the progress computation -/

/-- The fragment of IEEE-754 binary64 arithmetic the progress computation
can reach from integer inputs: an exact rational, `NaN`, or a signed
infinity.  The division is modelled exactly over `ℚ` — binary64 rounding
cannot move a value across the `0`/`100` clamp bounds, and the special
values (`0/0 = NaN`, `±x/0 = ±Infinity`, `NaN` propagation through
`Math.min`/`Math.max`) follow IEEE semantics exactly. -/
inductive JSNum where
  | num (q : ℚ)
  | nan
  | inf
  | ninf
deriving DecidableEq

/-- JavaScript division of two integers. -/
def jsDivInt (a b : Int) : JSNum :=
  if b = 0 then (if a = 0 then JSNum.nan else if 0 < a then JSNum.inf else JSNum.ninf)
  else JSNum.num ((a : ℚ) / (b : ℚ))

/-- `x * 100`. -/
def jsMul100 : JSNum → JSNum
  | JSNum.num q => JSNum.num (q * 100)
  | x => x

/-- `Math.max(0, x)` (`NaN` propagates). -/
def jsMax0 : JSNum → JSNum
  | JSNum.num q => JSNum.num (max 0 q)
  | JSNum.nan => JSNum.nan
  | JSNum.inf => JSNum.inf
  | JSNum.ninf => JSNum.num 0

/-- `Math.min(100, x)` (`NaN` propagates). -/
def jsMin100 : JSNum → JSNum
  | JSNum.num q => JSNum.num (min 100 q)
  | JSNum.nan => JSNum.nan
  | JSNum.inf => JSNum.num 100
  | JSNum.ninf => JSNum.ninf

/-- The progress value of `updateEPG` (`src/components/VideoPlayer.tsx`)
and `ChannelItem` (`src/unnamed/part_002`):
`Math.min(100, Math.max(0, (elapsed / total) * 100))` with
`total = end - start` and `elapsed = now - start`. -/
def progressJS (startT endT now : Int) : JSNum :=
  jsMin100 (jsMax0 (jsMul100 (jsDivInt (now - startT) (endT - startT))))

/-- A one-channel parser state about to merge `Sky Sports HD`. -/
def stEx : ParseState :=
  { channels := [{ id := 0, name := str "Sky Sports", group := str "Uncategorized",
                   logo := str "logo", url := str "u1", tvgId := none,
                   streams := some [⟨str "FHD", str "u1"⟩] }]
    keyMap := [(str "sky sports", 0)]
    pending := some { name := str "Sky Sports HD", group := str "Uncategorized",
                      logo := none, tvgId := none }
    counter := 1 }

/-! ## C3 — the cleaned name is a fixpoint of the cleanup pipeline -/

/-- Every whitespace character is a plain space and no two whitespace
characters are adjacent — the shape `collapseWs` produces. -/
def noWsRun : Str → Bool
  | [] => true
  | c :: rest =>
    if isSpaceJS c then
      (c == ' ') && (match rest with | [] => true | d :: _ => !isSpaceJS d)
        && noWsRun rest
    else noWsRun rest

/-! ### Theorems -/

theorem tokPrefixCI_length_le {t s : Str} (h : tokPrefixCI t s = true) :
    t.length ≤ s.length := by
  induction t generalizing s with
  | nil => exact Nat.zero_le _
  | cons a ts ih =>
    cases s with
    | nil => simp [tokPrefixCI] at h
    | cons c cs =>
      simp only [tokPrefixCI, Bool.and_eq_true] at h
      simpa [List.length_cons, Nat.succ_le_succ_iff] using ih h.2

theorem firstTokLen_bounds {toks : List Str} {s : Str} {k : Nat}
    (hne : ∀ t ∈ toks, t ≠ []) (h : firstTokLen toks s = some k) :
    1 ≤ k ∧ k ≤ s.length := by
  induction toks with
  | nil => simp [firstTokLen] at h
  | cons t ts ih =>
    simp only [firstTokLen] at h
    split at h
    · rename_i hcond
      simp only [Bool.and_eq_true] at hcond
      cases h
      refine ⟨?_, tokPrefixCI_length_le hcond.1⟩
      have : t ≠ [] := hne t (List.mem_cons_self t ts)
      cases t with
      | nil => exact absurd rfl this
      | cons a b => simp [List.length_cons]
    · exact ih (fun u hu => hne u (List.mem_cons_of_mem t hu)) h

theorem stripTokens_ne_nil : ∀ t ∈ stripTokens, t ≠ [] := by decide

theorem tokAt_bounds {prev : Option Char} {s : Str} {k : Nat}
    (h : tokAt prev s = some k) : 1 ≤ k ∧ k ≤ s.length := by
  unfold tokAt at h
  split at h
  · exact firstTokLen_bounds stripTokens_ne_nil h
  · exact absurd h (by simp)

theorem splitNL_ne_nil (s : Str) : splitNL s ≠ [] := by
  cases s with
  | nil => simp [splitNL]
  | cons c rest =>
    simp only [splitNL]
    cases splitNL rest with
    | nil => simp
    | cons h t =>
      by_cases hc : c = '\n' <;> simp [hc]

/-- A newline-free string is a single line. -/
theorem splitNL_no_nl {l : Str} (h : '\n' ∉ l) : splitNL l = [l] := by
  induction l with
  | nil => rfl
  | cons c rest ih =>
    simp only [List.mem_cons, not_or] at h
    simp only [splitNL, ih h.2]
    simp [Ne.symm h.1]

/-- Splitting after a newline-free first line. -/
theorem splitNL_line_append {l s : Str} (h : '\n' ∉ l) :
    splitNL (l ++ '\n' :: s) = l :: splitNL s := by
  induction l with
  | nil =>
    simp only [List.nil_append, splitNL]
    cases hs : splitNL s with
    | nil => exact absurd hs (splitNL_ne_nil s)
    | cons h0 t => simp
  | cons c rest ih =>
    simp only [List.mem_cons, not_or] at h
    simp only [List.cons_append, splitNL, List.append_eq]
    rw [ih h.2]
    simp [Ne.symm h.1]

/-- `split('\n')` undoes a `'\n'`-join of newline-free lines. -/
theorem splitNL_intercalate (ls : List Str) (hls : ls ≠ [])
    (h : ∀ l ∈ ls, '\n' ∉ l) :
    splitNL (List.intercalate ['\n'] ls) = ls := by
  induction ls with
  | nil => exact absurd rfl hls
  | cons l rest ih =>
    cases rest with
    | nil =>
      simp only [List.intercalate, List.intersperse, List.flatten, List.append_nil]
      exact splitNL_no_nl (h l (List.mem_cons_self l []))
    | cons l2 rest2 =>
      have hjoin : List.intercalate ['\n'] (l :: l2 :: rest2)
          = l ++ '\n' :: List.intercalate ['\n'] (l2 :: rest2) := by
        simp [List.intercalate, List.intersperse]
      rw [hjoin, splitNL_line_append (h l (List.mem_cons_self l _)),
        ih (by simp) (fun x hx => h x (List.mem_cons_of_mem l hx))]

/-- `parseM3U` unfolded to its line loop (definitional). -/
theorem parseM3U_as_lines (content : Str) (cat : Option MCategory) :
    parseM3U content cat =
      { groups := buildGroups (parseLines cat (splitNL content)).channels
        epgUrl := epgScan ((splitNL content).take 5) none } := rfl

theorem stepLine_none_singleVariant (st : ParseState) (l : Str)
    (h : ∀ c ∈ st.channels, singleVariant c) :
    ∀ c ∈ (stepLine none st l).channels, singleVariant c := by
  intro c hc
  unfold stepLine at hc
  by_cases h1 : trimJS l = []
  · rw [if_pos h1] at hc; exact h c hc
  rw [if_neg h1] at hc
  by_cases h2 : (str "#EXTINF:").isPrefixOf (trimJS l) = true
  · rw [if_pos h2] at hc; exact h c hc
  rw [if_neg h2] at hc
  by_cases h3 : (str "#").isPrefixOf (trimJS l) = true
  · rw [if_pos h3] at hc; exact h c hc
  rw [if_neg h3] at hc
  cases hp : st.pending with
  | none => rw [hp] at hc; exact h c hc
  | some pc =>
    rw [hp] at hc
    unfold processEntry at hc
    simp only [shouldGroupFn] at hc
    cases hlk : lookupKey st.keyMap (lowerStr (parseChannelInfo pc.name).1) with
    | none =>
      rw [hlk] at hc
      simp only at hc
      rcases List.mem_append.mp hc with hmem | hmem
      · exact h c hmem
      · rcases List.mem_singleton.mp hmem with rfl
        exact ⟨_, rfl⟩
    | some idx =>
      rw [hlk] at hc
      simp only at hc
      rcases List.mem_append.mp hc with hmem | hmem
      · exact h c hmem
      · rcases List.mem_singleton.mp hmem with rfl
        exact ⟨_, rfl⟩

theorem parseLines_none_singleVariant (lines : List Str) :
    ∀ c ∈ (parseLines none lines).channels, singleVariant c := by
  suffices hgen : ∀ st, (∀ c ∈ st.channels, singleVariant c) →
      ∀ c ∈ (lines.foldl (stepLine none) st).channels, singleVariant c by
    exact hgen initState (by intro c hc; simp [initState] at hc)
  induction lines with
  | nil => intro st hst; simpa using hst
  | cons l rest ih =>
    intro st hst
    simp only [List.foldl_cons]
    exact ih (stepLine none st l) (stepLine_none_singleVariant st l hst)

theorem mem_buildGroups_channels {chs : List MChannel} {g : MChannelGroup}
    {c : MChannel} (hg : g ∈ buildGroups chs) (hc : c ∈ g.channels) : c ∈ chs := by
  unfold buildGroups at hg
  rcases List.mem_map.mp hg with ⟨t, _, rfl⟩
  exact List.mem_of_mem_filter hc

/-- C1: for a playlist with exactly the entries `Sky Sports FHD` and
`Sky Sports HD` under the always-eligible `Fotboll` hint, `parseM3U`
returns a single group containing exactly one channel whose stream list
has the two quality labels `FHD` then `HD` in encounter order. -/
theorem c1_dedup_fotboll :
    ((parseM3U skyContent (some MCategory.FOTBOLL)).groups.map
      (fun g => (g.title, g.channels.map (fun c => (c.name, c.streams))))) =
    [(str "Uncategorized",
      [(str "Sky Sports",
        some [⟨str "FHD", str "http://u1"⟩, ⟨str "HD", str "http://u2"⟩])])] := by
  decide

set_option maxRecDepth 1000000 in
/-- C2: under the `Kanaler` hint the 115–248 window gates merging —
duplicates at running positions 50 and 200 stay two separate channels
(the first keeps its raw name and `Default` variant, the second becomes a
fresh grouped channel), duplicates at 120 and 200 merge into one channel
carrying both variants; and with no category hint no merge ever happens:
every channel of every group keeps exactly its single creation variant. -/
theorem c2_positional_window :
    (((parseM3U contentA (some MCategory.KANALER)).groups.map groupSummary) =
      [{ title := str "Uncategorized", count := 200,
         dups := [(str "Dup FHD", some [⟨str "Default", str "u50"⟩]),
                  (str "Dup", some [⟨str "HD", str "u200"⟩])] }]) ∧
    (((parseM3U contentB (some MCategory.KANALER)).groups.map groupSummary) =
      [{ title := str "Uncategorized", count := 199,
         dups := [(str "Dup",
                   some [⟨str "FHD", str "u120"⟩, ⟨str "HD", str "u200"⟩])] }]) ∧
    (∀ content : Str, ∀ g ∈ (parseM3U content none).groups,
      ∀ c ∈ g.channels, singleVariant c) := by
  refine ⟨?_, ?_, ?_⟩
  · rw [parseM3U_as_lines, contentA, splitNL_intercalate linesA (by decide) (by decide)]
    decide
  · rw [parseM3U_as_lines, contentB, splitNL_intercalate linesB (by decide) (by decide)]
    decide
  · intro content g hg c hc
    rw [parseM3U_as_lines] at hg
    exact parseLines_none_singleVariant _ c (mem_buildGroups_channels hg hc)

/-- Witness for C2: the general no-hint conjunct applied to a concrete
one-entry playlist. -/
theorem c2_positional_window_witness :
    singleVariant
      (((parseM3U (str "#EXTINF:-1,A\nu") none).groups.getD 0 ⟨[], []⟩).channels.getD
        0 dummyChannel) :=
  c2_positional_window.2.2 (str "#EXTINF:-1,A\nu")
    ((parseM3U (str "#EXTINF:-1,A\nu") none).groups.getD 0 ⟨[], []⟩) (by decide)
    (((parseM3U (str "#EXTINF:-1,A\nu") none).groups.getD 0 ⟨[], []⟩).channels.getD
      0 dummyChannel) (by decide)

/-- C4: the fixture matcher splits the alert title on `vs`/`v` and requires
every trimmed team fragment to occur in the program title: the one-team
title `Arsenal Post-Match Show` is rejected, `Premier League: Arsenal v
Chelsea` is accepted, fewer than two fragments always reject, and a `true`
verdict forces every fragment to be contained. -/
theorem c4_fuzzy_both_teams :
    (isSameMatch (some (str "Arsenal Post-Match Show")) (str "Arsenal vs Chelsea") = false) ∧
    (isSameMatch (some (str "Premier League: Arsenal v Chelsea")) (str "Arsenal vs Chelsea")
      = true) ∧
    (∀ e a : Str, (splitVsV (lowerStr a)).length < 2 → isSameMatch (some e) a = false) ∧
    (∀ e a : Str, isSameMatch (some e) a = true →
      ∀ team ∈ splitVsV (lowerStr a), includesJS (lowerStr e) (trimJS team) = true) := by
  refine ⟨by decide, by decide, ?_, ?_⟩
  · intro e a h
    unfold isSameMatch
    by_cases h1 : (e = [] || a = []) = true
    · simp [h1]
    · simp only [h1, Bool.false_eq_true, if_false]
      rw [if_pos h]
  · intro e a h team hteam
    unfold isSameMatch at h
    by_cases h1 : (e = [] || a = []) = true
    · simp [h1] at h
    · simp only [h1, Bool.false_eq_true, if_false] at h
      by_cases h2 : (splitVsV (lowerStr a)).length < 2
      · rw [if_pos h2] at h
        exact absurd h (by simp)
      · rw [if_neg h2] at h
        exact List.all_eq_true.mp h team hteam

/-- Witness for C4: the single-fragment conjunct at a concrete input. -/
theorem c4_fuzzy_both_teams_witness :
    isSameMatch (some (str "Arsenal")) (str "ArsenalChelsea") = false :=
  c4_fuzzy_both_teams.2.2.1 (str "Arsenal") (str "ArsenalChelsea") (by decide)

/-- C6: the empty document and a document with no M3U structure both parse
to no groups and a null EPG URL, whatever the category hint (the embedding
is total, so termination holds for every input by construction). -/
theorem c6_empty_garbage :
    parseM3U (str "") none = { groups := [], epgUrl := none } ∧
    parseM3U (str "not an m3u file") none = { groups := [], epgUrl := none } ∧
    parseM3U (str "") (some MCategory.FOTBOLL) = { groups := [], epgUrl := none } ∧
    parseM3U (str "") (some MCategory.KANALER) = { groups := [], epgUrl := none } ∧
    parseM3U (str "not an m3u file") (some MCategory.FOTBOLL)
      = { groups := [], epgUrl := none } ∧
    parseM3U (str "not an m3u file") (some MCategory.KANALER)
      = { groups := [], epgUrl := none } := by
  decide

theorem getCurrentProgram_start_le {progs : List MEPGProgram} {now : Int}
    {p : MEPGProgram} (h : getCurrentProgram progs now = some p) :
    p.startTime ≤ now ∧ now < p.endTime := by
  unfold getCurrentProgram at h
  suffices hgen : ∀ acc, (∀ q, acc = some q → q.startTime ≤ now ∧ now < q.endTime) →
      ∀ r, progs.foldl
        (fun acc p =>
          if p.startTime ≤ now ∧ now < p.endTime then
            match acc with
            | none => some p
            | some q => if q.startTime < p.startTime then some p else acc
          else acc) acc = some r → r.startTime ≤ now ∧ now < r.endTime by
    exact hgen none (by intro q hq; cases hq) p h
  clear h
  induction progs with
  | nil => intro acc hacc r hr; exact hacc r hr
  | cons p0 rest ih =>
    intro acc hacc r hr
    simp only [List.foldl_cons] at hr
    refine ih _ ?_ r hr
    intro q hq
    by_cases hin : p0.startTime ≤ now ∧ now < p0.endTime
    · rw [if_pos hin] at hq
      cases acc with
      | none => cases hq; exact hin
      | some q0 =>
        dsimp only at hq
        by_cases hlt : q0.startTime < p0.startTime
        · rw [if_pos hlt] at hq; cases hq; exact hin
        · rw [if_neg hlt] at hq; exact hacc q hq
    · rw [if_neg hin] at hq; exact hacc q hq

theorem getNextProgram_now_lt {progs : List MEPGProgram} {now : Int}
    {p : MEPGProgram} (h : getNextProgram progs now = some p) :
    now < p.startTime := by
  unfold getNextProgram at h
  suffices hgen : ∀ acc, (∀ q, acc = some q → now < q.startTime) →
      ∀ r, progs.foldl
        (fun acc p =>
          if now < p.startTime then
            match acc with
            | none => some p
            | some q => if p.startTime < q.startTime then some p else acc
          else acc) acc = some r → now < r.startTime by
    exact hgen none (by intro q hq; cases hq) p h
  clear h
  induction progs with
  | nil => intro acc hacc r hr; exact hacc r hr
  | cons p0 rest ih =>
    intro acc hacc r hr
    simp only [List.foldl_cons] at hr
    refine ih _ ?_ r hr
    intro q hq
    by_cases hin : now < p0.startTime
    · rw [if_pos hin] at hq
      cases acc with
      | none => cases hq; exact hin
      | some q0 =>
        dsimp only at hq
        by_cases hlt : p0.startTime < q0.startTime
        · rw [if_pos hlt] at hq; cases hq; exact hin
        · rw [if_neg hlt] at hq; exact hacc q hq
    · rw [if_neg hin] at hq; exact hacc q hq

/-- C5: program intervals are half-open — the 10:00–11:00 program is
current at exactly 10:00 and no longer current at exactly 11:00 — and for
every program list and instant the current program is never simultaneously
returned as the next program. -/
theorem c5_halfopen_resolution :
    (getCurrentProgram [prog10to11] 36000000 = some prog10to11) ∧
    (getCurrentProgram [prog10to11] 39600000 = none) ∧
    (∀ progs : List MEPGProgram, ∀ now : Int, ∀ p : MEPGProgram,
      getCurrentProgram progs now = some p → getNextProgram progs now ≠ some p) := by
  refine ⟨by decide, by decide, ?_⟩
  intro progs now p hcur hnext
  have h1 := (getCurrentProgram_start_le hcur).1
  have h2 := getNextProgram_now_lt hnext
  omega

/-- Witness for C5: the never-both conjunct at a concrete guide. -/
theorem c5_halfopen_resolution_witness :
    getNextProgram [prog10to11] 36000000 ≠ some prog10to11 :=
  c5_halfopen_resolution.2.2 [prog10to11] 36000000 prog10to11 (by decide)

/-! ## C7 — the base-name fallback -/

theorem mem_dropWhile_of_not_space {x : Str} {c : Char} (hc : c ∈ x)
    (hns : isSpaceJS c = false) : c ∈ x.dropWhile isSpaceJS := by
  induction x with
  | nil => cases hc
  | cons a rest ih =>
    by_cases ha : isSpaceJS a = true
    · rw [List.dropWhile_cons_of_pos ha]
      rcases List.mem_cons.mp hc with rfl | hmem
      · rw [hns] at ha; cases ha
      · exact ih hmem
    · rw [List.dropWhile_cons_of_neg ha]
      exact hc

theorem mem_trimJS_of_not_space {x : Str} {c : Char} (hc : c ∈ x)
    (hns : isSpaceJS c = false) : c ∈ trimJS x := by
  unfold trimJS
  rw [List.mem_reverse]
  exact mem_dropWhile_of_not_space
    (by rw [List.mem_reverse]; exact mem_dropWhile_of_not_space hc hns) hns

/-- C7 counterexample: on the all-whitespace raw name `" "` the stripping
pipeline leaves nothing and the fallback `rawName.trim()` is itself empty,
so `parseChannelInfo` does return an empty base name. -/
theorem c7_empty_baseName_cex : (parseChannelInfo (str " ")).1 = [] := by decide

/-- C7 (amended): when stripping and cleanup leave an empty string the base
name is the trimmed original raw name; it is non-empty whenever the raw
name contains at least one non-whitespace character. -/
theorem c7_fallback_nonempty :
    (∀ x : Str, cleanupName (stripRemove (nfkc x)) = [] →
      (parseChannelInfo x).1 = trimJS x) ∧
    (∀ x : Str, (∃ c ∈ x, isSpaceJS c = false) → (parseChannelInfo x).1 ≠ []) := by
  constructor
  · intro x h
    simp [parseChannelInfo, h]
  · intro x ⟨c, hc, hns⟩
    by_cases hb : cleanupName (stripRemove (nfkc x)) = []
    · rw [(by simp [parseChannelInfo, hb] : (parseChannelInfo x).1 = trimJS x)]
      exact List.ne_nil_of_mem (mem_trimJS_of_not_space hc hns)
    · rw [(by simp [parseChannelInfo, hb] : (parseChannelInfo x).1
          = cleanupName (stripRemove (nfkc x)))]
      exact hb

/-- Witness for C7: both conjuncts applied to concrete raw names. -/
theorem c7_fallback_nonempty_witness :
    (parseChannelInfo (str "FHD")).1 = trimJS (str "FHD") ∧
    (parseChannelInfo (str "Sky Sports")).1 ≠ [] :=
  ⟨c7_fallback_nonempty.1 (str "FHD") (by decide),
   c7_fallback_nonempty.2 (str "Sky Sports") ⟨'S', by decide, by decide⟩⟩

/-- C8 counterexample: for a zero-length program queried at its start
instant the division is `0/0`, which is not guarded — the computed
progress is `NaN`, not a clamped percentage. -/
theorem c8_zero_length_nan_cex : progressJS 0 0 0 = JSNum.nan := by decide

/-- C8 (amended): for every program of non-zero length the progress equals
`100 · clamp((now−start)/(end−start), 0, 1)` and lies within 0–100; for a
zero-length program the division is unguarded — `now = start` produces
`NaN`, while `now ≠ start` still lands on the bound 0 or 100 through the
signed infinity. -/
theorem c8_progress_clamped :
    (∀ s e n : Int, e ≠ s →
      ∃ q : ℚ, progressJS s e n = JSNum.num q ∧
        q = 100 * max 0 (min 1 (((n : ℚ) - (s : ℚ)) / ((e : ℚ) - (s : ℚ)))) ∧
        0 ≤ q ∧ q ≤ 100) ∧
    (∀ s n : Int, s ≠ n →
      progressJS s s n = JSNum.num 0 ∨ progressJS s s n = JSNum.num 100) := by
  constructor
  · intro s e n he
    have hdz : e - s ≠ 0 := sub_ne_zero.mpr he
    have hdzq : ((e : ℚ) - (s : ℚ)) ≠ 0 := by
      exact_mod_cast sub_ne_zero.mpr (fun h => he (by exact_mod_cast h))
    set r : ℚ := ((n : ℚ) - (s : ℚ)) / ((e : ℚ) - (s : ℚ)) with hr
    have hstep : progressJS s e n = JSNum.num (min 100 (max 0 (r * 100))) := by
      unfold progressJS jsDivInt
      rw [if_neg hdz]
      have hcast : (((n - s : Int)) : ℚ) / (((e - s : Int)) : ℚ) = r := by
        rw [hr]; push_cast; ring_nf
      rw [hcast]
      rfl
    refine ⟨min 100 (max 0 (r * 100)), hstep, ?_, ?_, min_le_left _ _⟩
    · rcases le_total r 0 with h0 | h0
      · rw [max_eq_left (by nlinarith), min_eq_right (by norm_num),
          min_eq_right (le_trans h0 zero_le_one), max_eq_left h0, mul_zero]
      · rcases le_total r 1 with h1 | h1
        · rw [max_eq_right (by nlinarith), min_eq_right (by nlinarith),
            min_eq_right h1, max_eq_right h0]; ring
        · rw [max_eq_right (by nlinarith), min_eq_left (by nlinarith),
            min_eq_left h1, max_eq_right (by norm_num), mul_one]
    · exact le_min (by norm_num) (le_max_left _ _)
  · intro s n hne
    rcases lt_or_gt_of_ne (sub_ne_zero.mpr (Ne.symm hne)) with hlt | hgt
    · left
      unfold progressJS jsDivInt
      rw [if_pos (sub_self s), if_neg (by omega), if_neg (by omega)]
      rfl
    · right
      unfold progressJS jsDivInt
      rw [if_pos (sub_self s), if_neg (by omega), if_pos (by omega)]
      rfl

/-- Witness for C8: the amended theorem at the program `[0, 2)` queried at
instant 1, and at a zero-length program queried off its start. -/
theorem c8_progress_clamped_witness :
    (∃ q : ℚ, progressJS 0 2 1 = JSNum.num q ∧
      q = 100 * max 0 (min 1 (((1 : ℚ) - (0 : ℚ)) / ((2 : ℚ) - (0 : ℚ)))) ∧
      0 ≤ q ∧ q ≤ 100) ∧
    (progressJS 3 3 7 = JSNum.num 0 ∨ progressJS 3 3 7 = JSNum.num 100) :=
  ⟨c8_progress_clamped.1 0 2 1 (by decide), c8_progress_clamped.2 3 7 (by decide)⟩

/-! ## C9 — frame effect of a merge -/

theorem getD_set_ne {α : Type} (l : List α) (i j : Nat) (x d : α) (h : j ≠ i) :
    (l.set i x).getD j d = l.getD j d := by
  induction l generalizing i j with
  | nil => simp [List.set]
  | cons a rest ih =>
    cases i with
    | zero =>
      cases j with
      | zero => exact absurd rfl h
      | succ j' => simp [List.set, List.getD]
    | succ i' =>
      cases j with
      | zero => simp [List.set, List.getD]
      | succ j' =>
        simp only [List.set, List.getD_cons_succ]
        exact ih i' j' (fun hj => h (by rw [hj]))

theorem getD_set_eq {α : Type} (l : List α) (i : Nat) (x d : α)
    (h : i < l.length) : (l.set i x).getD i d = x := by
  induction l generalizing i with
  | nil => simp at h
  | cons a rest ih =>
    cases i with
    | zero => simp [List.set, List.getD]
    | succ i' =>
      simp only [List.set, List.getD_cons_succ]
      exact ih i' (by simpa using h)

theorem map_set_eq_map {α β : Type} {l : List α} {i : Nat} {x d : α} {f : α → β}
    (hi : i < l.length) (h : f x = f (l.getD i d)) : (l.set i x).map f = l.map f := by
  induction l generalizing i with
  | nil => simp at hi
  | cons a rest ih =>
    cases i with
    | zero =>
      simp only [List.getD_cons_zero] at h
      simp [List.set, h]
    | succ i' =>
      simp only [List.getD_cons_succ] at h
      simp only [List.set, List.map_cons, List.cons.injEq, true_and]
      exact ih (by simpa using hi) h

theorem filter_group_map_id {l1 l2 : List MChannel}
    (h : l1.map (fun c => (c.group, c.id)) = l2.map (fun c => (c.group, c.id)))
    (t : Str) :
    (l1.filter (fun c => c.group = t)).map (fun c => c.id)
      = (l2.filter (fun c => c.group = t)).map (fun c => c.id) := by
  induction l1 generalizing l2 with
  | nil =>
    have : l2.map (fun c => (c.group, c.id)) = [] := h.symm
    rw [List.map_eq_nil_iff.mp this]
  | cons c1 r1 ih =>
    cases l2 with
    | nil => simp at h
    | cons c2 r2 =>
      simp only [List.map_cons, List.cons.injEq, Prod.mk.injEq] at h
      obtain ⟨⟨hgrp, hid⟩, hrest⟩ := h
      simp only [List.filter_cons]
      by_cases hgt : c1.group = t
      · rw [if_pos (by exact decide_eq_true hgt), if_pos (by
          exact decide_eq_true (hgrp ▸ hgt))]
        simp only [List.map_cons, hid]
        rw [ih hrest]
      · rw [if_neg (by simpa using hgt), if_neg (by
          rw [← hgrp]; simpa using hgt)]
        exact ih hrest

theorem buildGroups_shape_eq {l1 l2 : List MChannel}
    (h : l1.map (fun c => (c.group, c.id)) = l2.map (fun c => (c.group, c.id))) :
    (buildGroups l1).map (fun g => (g.title, g.channels.map (fun c => c.id)))
      = (buildGroups l2).map (fun g => (g.title, g.channels.map (fun c => c.id))) := by
  have hg : l1.map (fun c => c.group) = l2.map (fun c => c.group) := by
    have := congrArg (List.map Prod.fst) h
    simpa [List.map_map, Function.comp] using this
  simp only [buildGroups]
  rw [hg]
  simp only [List.map_map]
  apply List.map_congr_left
  intro t _
  simp only [Function.comp_apply, Prod.mk.injEq, true_and]
  exact filter_group_map_id h t

theorem extinf_prefix_hash {t : Str} (h : (str "#EXTINF:").isPrefixOf t = true) :
    (str "#").isPrefixOf t = true := by
  rw [List.isPrefixOf_iff_prefix] at h ⊢
  exact List.IsPrefix.trans ⟨str "EXTINF:", rfl⟩ h

/-- C9: merging an eligible entry into an existing channel appends exactly
one stream variant (after synthesizing a `Default` variant from the
channel's original URL if it had no variant list), leaves the channel's
`id`, `name`, `group`, `logo`, `url` and `tvgId` untouched, changes no other
channel, registers nothing new in the dedup map, creates no channel, and
leaves the per-group channel membership (titles and channel ids) intact. -/
theorem c9_merge_frame (cat : Option MCategory) (st : ParseState) (line : Str)
    (pc : PendingChannel) (idx : Nat) (ch : MChannel)
    (hpend : st.pending = some pc)
    (ht : trimJS line ≠ [])
    (hnc : (str "#").isPrefixOf (trimJS line) = false)
    (hsg : shouldGroupFn cat (st.counter + 1) = true)
    (hlk : lookupKey st.keyMap (lowerStr (parseChannelInfo pc.name).1) = some idx)
    (hidx : idx < st.channels.length)
    (hch : st.channels.getD idx dummyChannel = ch) :
    (stepLine cat st line).channels.length = st.channels.length ∧
    (stepLine cat st line).keyMap = st.keyMap ∧
    (∀ j, j ≠ idx →
      (stepLine cat st line).channels.getD j dummyChannel
        = st.channels.getD j dummyChannel) ∧
    (stepLine cat st line).channels.getD idx dummyChannel =
      { ch with streams := some (
          match ch.streams with
          | none => [⟨str "Default", ch.url⟩,
                     ⟨(parseChannelInfo pc.name).2, trimJS line⟩]
          | some l => l ++ [⟨(parseChannelInfo pc.name).2, trimJS line⟩]) } ∧
    ((buildGroups (stepLine cat st line).channels).map
        (fun g => (g.title, g.channels.map (fun c => c.id))) =
      (buildGroups st.channels).map
        (fun g => (g.title, g.channels.map (fun c => c.id)))) := by
  have hext : (str "#EXTINF:").isPrefixOf (trimJS line) = false := by
    cases hx : (str "#EXTINF:").isPrefixOf (trimJS line) with
    | false => rfl
    | true => rw [extinf_prefix_hash hx] at hnc; cases hnc
  have hstep : stepLine cat st line = processEntry cat st pc (trimJS line) := by
    unfold stepLine
    rw [if_neg ht]
    simp only [hext, hnc, Bool.false_eq_true, if_false]
    rw [hpend]
  have hproc : processEntry cat st pc (trimJS line) =
      { channels := st.channels.set idx
          { ch with streams := some (
              match ch.streams with
              | none => [⟨str "Default", ch.url⟩,
                         ⟨(parseChannelInfo pc.name).2, trimJS line⟩]
              | some l => l ++ [⟨(parseChannelInfo pc.name).2, trimJS line⟩]) }
        keyMap := st.keyMap
        pending := none
        counter := st.counter + 1 } := by
    unfold processEntry
    simp only [hlk, hsg, hch]
  rw [hstep, hproc]
  refine ⟨by simp, rfl, ?_, ?_, ?_⟩
  · intro j hj
    exact getD_set_ne _ _ _ _ _ hj
  · exact getD_set_eq _ _ _ _ hidx
  · apply buildGroups_shape_eq
    exact map_set_eq_map hidx (by rw [hch])

/-- Witness for C9: the frame theorem at the concrete one-channel state. -/
theorem c9_merge_frame_witness :
    (stepLine (some MCategory.FOTBOLL) stEx (str "u2")).channels.length
        = stEx.channels.length ∧
    (stepLine (some MCategory.FOTBOLL) stEx (str "u2")).keyMap = stEx.keyMap ∧
    (∀ j, j ≠ 0 →
      (stepLine (some MCategory.FOTBOLL) stEx (str "u2")).channels.getD j dummyChannel
        = stEx.channels.getD j dummyChannel) ∧
    (stepLine (some MCategory.FOTBOLL) stEx (str "u2")).channels.getD 0 dummyChannel =
      { id := 0, name := str "Sky Sports", group := str "Uncategorized",
        logo := str "logo", url := str "u1", tvgId := none,
        streams := some (
          match (some [(⟨str "FHD", str "u1"⟩ : MStreamVariant)] :
              Option (List MStreamVariant)) with
          | none => [⟨str "Default", str "u1"⟩,
                     ⟨(parseChannelInfo (str "Sky Sports HD")).2, trimJS (str "u2")⟩]
          | some l => l ++ [⟨(parseChannelInfo (str "Sky Sports HD")).2,
                            trimJS (str "u2")⟩]) } ∧
    ((buildGroups (stepLine (some MCategory.FOTBOLL) stEx (str "u2")).channels).map
        (fun g => (g.title, g.channels.map (fun c => c.id))) =
      (buildGroups stEx.channels).map
        (fun g => (g.title, g.channels.map (fun c => c.id)))) :=
  c9_merge_frame (some MCategory.FOTBOLL) stEx (str "u2")
    { name := str "Sky Sports HD", group := str "Uncategorized",
      logo := none, tvgId := none } 0
    { id := 0, name := str "Sky Sports", group := str "Uncategorized",
      logo := str "logo", url := str "u1", tvgId := none,
      streams := some [⟨str "FHD", str "u1"⟩] }
    (by decide) (by decide) (by decide) (by decide) (by decide) (by decide) (by decide)

/-! ## C10 — metadata lines without a URL line -/

/-- A line whose trimmed form starts with `#EXTINF:` only replaces the
pending descriptor. -/
theorem stepLine_extinf (cat : Option MCategory) (st : ParseState) (l : Str)
    (h : (str "#EXTINF:").isPrefixOf (trimJS l) = true) :
    stepLine cat st l = { st with pending := some (parseExtinf (trimJS l)) } := by
  unfold stepLine
  have hne : ¬(trimJS l = []) := by
    intro he
    rw [he] at h
    exact absurd h (by decide)
  rw [if_neg hne]
  simp only [h, if_true]

theorem extinf_not_extm3u {t : Str}
    (h : (str "#EXTINF:").isPrefixOf t = true) :
    (str "#EXTM3U").isPrefixOf t = false := by
  obtain ⟨rest, hrest⟩ := List.isPrefixOf_iff_prefix.mp h
  rw [← hrest]
  rfl

/-- A non-`#EXTM3U` final line does not change the EPG scan. -/
theorem epgScan_append_skip (xs : List Str) (l : Str) (acc : Option Str)
    (hl : (str "#EXTM3U").isPrefixOf (trimJS l) = false) :
    epgScan (xs ++ [l]) acc = epgScan xs acc := by
  induction xs generalizing acc with
  | nil => simp [epgScan, hl]
  | cons x rest ih =>
    simp only [List.cons_append, epgScan]
    by_cases hx : (str "#EXTM3U").isPrefixOf (trimJS x) = true
    · simp only [hx, if_true]
      by_cases he : truthyS (jsOr (extractAttribute (trimJS x) (str "url-tvg"))
          (extractAttribute (trimJS x) (str "x-tvg-url"))) = true
      · rw [if_pos he, if_pos he]
      · rw [if_neg he, if_neg he]
        exact ih _
    · simp only [Bool.not_eq_true] at hx
      simp only [hx, Bool.false_eq_true, if_false]
      exact ih _

theorem epgScan_take_append (xs : List Str) (l : Str) (acc : Option Str)
    (hl : (str "#EXTM3U").isPrefixOf (trimJS l) = false) :
    epgScan ((xs ++ [l]).take 5) acc = epgScan (xs.take 5) acc := by
  by_cases h5 : 5 ≤ xs.length
  · rw [List.take_append_of_le_length h5]
  · have hxs : xs.take 5 = xs := List.take_of_length_le (by omega)
    have hall : (xs ++ [l]).take 5 = xs ++ [l] :=
      List.take_of_length_le (by simp; omega)
    rw [hall, hxs]
    exact epgScan_append_skip xs l acc hl

/-- Splitting off a trailing newline-free line. -/
theorem splitNL_append_nl_tail {a l : Str} (h : '\n' ∉ l) :
    splitNL (a ++ '\n' :: l) = splitNL a ++ [l] := by
  induction a with
  | nil =>
    simp only [List.nil_append, splitNL]
    rw [splitNL_no_nl h]
    simp
  | cons c rest ih =>
    simp only [List.cons_append, splitNL, List.append_eq]
    rw [ih]
    cases hr : splitNL rest with
    | nil => exact absurd hr (splitNL_ne_nil rest)
    | cons h0 t =>
      by_cases hc : c = '\n' <;> simp [hc]

/-- C10: a metadata line followed by another metadata line before any URL
line is silently discarded — processing the two in sequence equals
processing only the second; any `#EXTINF:` line on its own leaves the
channels, the dedup map and the running entry counter untouched; and a
trailing metadata line with no following URL line leaves the whole parse
result unchanged. -/
theorem c10_pending_discarded :
    (∀ cat : Option MCategory, ∀ st : ParseState, ∀ l1 l2 : Str,
      (str "#EXTINF:").isPrefixOf (trimJS l1) = true →
      (str "#EXTINF:").isPrefixOf (trimJS l2) = true →
      stepLine cat (stepLine cat st l1) l2 = stepLine cat st l2) ∧
    (∀ cat : Option MCategory, ∀ st : ParseState, ∀ l : Str,
      (str "#EXTINF:").isPrefixOf (trimJS l) = true →
      (stepLine cat st l).channels = st.channels ∧
      (stepLine cat st l).keyMap = st.keyMap ∧
      (stepLine cat st l).counter = st.counter) ∧
    (∀ cat : Option MCategory, ∀ content l : Str,
      (str "#EXTINF:").isPrefixOf (trimJS l) = true → '\n' ∉ l →
      parseM3U (content ++ '\n' :: l) cat = parseM3U content cat) := by
  refine ⟨?_, ?_, ?_⟩
  · intro cat st l1 l2 h1 h2
    rw [stepLine_extinf cat st l1 h1, stepLine_extinf cat _ l2 h2,
      stepLine_extinf cat st l2 h2]
  · intro cat st l h
    rw [stepLine_extinf cat st l h]
    exact ⟨rfl, rfl, rfl⟩
  · intro cat content l hext hnl
    rw [parseM3U_as_lines, parseM3U_as_lines, splitNL_append_nl_tail hnl]
    have hgroups : (parseLines cat (splitNL content ++ [l])).channels
        = (parseLines cat (splitNL content)).channels := by
      unfold parseLines
      rw [List.foldl_append]
      simp only [List.foldl_cons, List.foldl_nil]
      rw [stepLine_extinf cat _ l hext]
    rw [hgroups, epgScan_take_append _ _ _ (extinf_not_extm3u hext)]

/-- Witness for C10: all three conjuncts at concrete lines and content. -/
theorem c10_pending_discarded_witness :
    (stepLine none (stepLine none initState (str "#EXTINF:-1,A")) (str "#EXTINF:-1,B")
      = stepLine none initState (str "#EXTINF:-1,B")) ∧
    ((stepLine none initState (str "#EXTINF:-1,A")).channels = initState.channels ∧
     (stepLine none initState (str "#EXTINF:-1,A")).keyMap = initState.keyMap ∧
     (stepLine none initState (str "#EXTINF:-1,A")).counter = initState.counter) ∧
    (parseM3U (str "#EXTINF:-1,A\nu" ++ '\n' :: str "#EXTINF:-1,B") none
      = parseM3U (str "#EXTINF:-1,A\nu") none) :=
  ⟨c10_pending_discarded.1 none initState (str "#EXTINF:-1,A") (str "#EXTINF:-1,B")
      (by decide) (by decide),
   c10_pending_discarded.2.1 none initState (str "#EXTINF:-1,A") (by decide),
   c10_pending_discarded.2.2 none (str "#EXTINF:-1,A\nu") (str "#EXTINF:-1,B")
      (by decide) (by decide)⟩

/-! ## C3 — character-class facts -/

theorem isSpaceJS_cases {c : Char} (h : isSpaceJS c = true) :
    c = ' ' ∨ c = '\t' ∨ c = '\n' ∨ c = '\x0b' ∨ c = '\x0c' ∨ c = '\r' ∨
    c = '\u00A0' ∨ c = '\uFEFF' := by
  have h2 := h
  simp only [isSpaceJS, Bool.or_eq_true, beq_iff_eq] at h2
  tauto

theorem space_not_word {c : Char} (h : isSpaceJS c = true) : isWordChar c = false := by
  rcases isSpaceJS_cases h with rfl | rfl | rfl | rfl | rfl | rfl | rfl | rfl <;> decide

theorem word_not_space {c : Char} (h : isWordChar c = true) : isSpaceJS c = false := by
  cases hs : isSpaceJS c with
  | false => rfl
  | true => rw [space_not_word hs] at h; cases h

theorem lowerChar_of_space {c : Char} (h : isSpaceJS c = true) : lowerChar c = c := by
  rcases isSpaceJS_cases h with rfl | rfl | rfl | rfl | rfl | rfl | rfl | rfl <;> decide

theorem nfkcChar_idem (c : Char) : nfkcChar (nfkcChar c) = nfkcChar c := by
  by_cases h1 : c = 'ᴴ'
  · subst h1; decide
  by_cases h2 : c = 'ᴰ'
  · subst h2; decide
  by_cases h3 : c = '⁺'
  · subst h3; decide
  have hc : nfkcChar c = c := by unfold nfkcChar; rw [if_neg h1, if_neg h2, if_neg h3]
  rw [hc, hc]

theorem isSpaceJS_nfkcChar (c : Char) : isSpaceJS (nfkcChar c) = isSpaceJS c := by
  by_cases h1 : c = 'ᴴ'
  · subst h1; decide
  by_cases h2 : c = 'ᴰ'
  · subst h2; decide
  by_cases h3 : c = '⁺'
  · subst h3; decide
  have hc : nfkcChar c = c := by unfold nfkcChar; rw [if_neg h1, if_neg h2, if_neg h3]
  rw [hc]

/-! ## C3 — membership through the pipeline stages -/

theorem mem_dropWhile_of_pred_false {p : Char → Bool} {x : Str} {c : Char}
    (hc : c ∈ x) (h : p c = false) : c ∈ x.dropWhile p := by
  induction x with
  | nil => cases hc
  | cons a rest ih =>
    by_cases ha : p a = true
    · rw [List.dropWhile_cons_of_pos ha]
      rcases List.mem_cons.mp hc with rfl | hmem
      · rw [h] at ha; cases ha
      · exact ih hmem
    · rw [List.dropWhile_cons_of_neg ha]
      exact hc

theorem mem_of_mem_dropWhile {p : Char → Bool} {x : Str} {c : Char}
    (h : c ∈ x.dropWhile p) : c ∈ x :=
  (List.dropWhile_sublist p).subset h

theorem mem_of_mem_trimJS {x : Str} {c : Char} (h : c ∈ trimJS x) : c ∈ x := by
  unfold trimJS at h
  rw [List.mem_reverse] at h
  have h2 := mem_of_mem_dropWhile h
  rw [List.mem_reverse] at h2
  exact mem_of_mem_dropWhile h2

theorem mem_stripGo_removed {s : Str} :
    ∀ prev skip, ∀ c ∈ (stripGo prev skip s).2, c ∈ s := by
  induction s with
  | nil => intro prev skip c hc; simp [stripGo] at hc
  | cons a rest ih =>
    intro prev skip c hc
    cases skip with
    | succ k =>
      simp only [stripGo] at hc
      exact List.mem_cons_of_mem a (ih (some a) k c hc)
    | zero =>
      simp only [stripGo] at hc
      cases htok : tokAt prev (a :: rest) with
      | some k =>
        rw [htok] at hc
        simp only at hc
        exact List.mem_cons_of_mem a (ih (some a) (k - 1) c hc)
      | none =>
        rw [htok] at hc
        simp only at hc
        rcases List.mem_cons.mp hc with rfl | hmem
        · exact List.mem_cons_self c rest
        · exact List.mem_cons_of_mem a (ih (some a) 0 c hmem)

theorem mem_collapseGo {s : Str} :
    ∀ b, ∀ c ∈ collapseGo b s, c = ' ' ∨ c ∈ s := by
  induction s with
  | nil => intro b c hc; simp [collapseGo] at hc
  | cons a rest ih =>
    intro b c hc
    simp only [collapseGo] at hc
    by_cases ha : isSpaceJS a = true
    · rw [if_pos ha] at hc
      cases b with
      | true =>
        simp only [if_true] at hc
        rcases ih true c hc with rfl | hmem
        · exact Or.inl rfl
        · exact Or.inr (List.mem_cons_of_mem a hmem)
      | false =>
        simp only [Bool.false_eq_true, if_false] at hc
        rcases List.mem_cons.mp hc with rfl | hmem
        · exact Or.inl rfl
        · rcases ih true c hmem with rfl | hmem2
          · exact Or.inl rfl
          · exact Or.inr (List.mem_cons_of_mem a hmem2)
    · rw [if_neg ha] at hc
      rcases List.mem_cons.mp hc with rfl | hmem
      · exact Or.inr (List.mem_cons_self c rest)
      · rcases ih false c hmem with rfl | hmem2
        · exact Or.inl rfl
        · exact Or.inr (List.mem_cons_of_mem a hmem2)

theorem nfkc_eq_self {s : Str} (h : ∀ c ∈ s, nfkcChar c = c) : nfkc s = s := by
  unfold nfkc
  calc s.map nfkcChar = s.map id := List.map_congr_left h
    _ = s := List.map_id s

theorem mem_nfkc_fixed {x : Str} {c : Char} (h : c ∈ nfkc x) : nfkcChar c = c := by
  unfold nfkc at h
  rcases List.mem_map.mp h with ⟨c0, _, rfl⟩
  exact nfkcChar_idem c0

/-! ## C3 — the scanner with no matches is the identity -/

theorem stripGo_nil_matches {s : Str} :
    ∀ prev, (stripGo prev 0 s).1 = [] → (stripGo prev 0 s).2 = s := by
  induction s with
  | nil => intro prev _; rfl
  | cons a rest ih =>
    intro prev h
    simp only [stripGo] at h ⊢
    cases htok : tokAt prev (a :: rest) with
    | some k =>
      simp only [htok] at h
      cases h
    | none =>
      simp only [htok] at h ⊢
      rw [ih (some a) h]

/-! ## C3 — trim decomposition and idempotence -/

theorem mem_takeWhile_pred {p : Char → Bool} {x : Str} {c : Char}
    (h : c ∈ x.takeWhile p) : p c = true := by
  induction x with
  | nil => cases h
  | cons a rest ih =>
    by_cases ha : p a = true
    · rw [List.takeWhile_cons_of_pos ha] at h
      rcases List.mem_cons.mp h with rfl | hmem
      · exact ha
      · exact ih hmem
    · rw [List.takeWhile_cons_of_neg ha] at h
      cases h

theorem trimJS_decomp (y : Str) :
    ∃ w1 w2 : Str, (∀ c ∈ w1, isSpaceJS c = true) ∧ (∀ c ∈ w2, isSpaceJS c = true) ∧
      y = w1 ++ trimJS y ++ w2 := by
  refine ⟨y.takeWhile isSpaceJS,
    ((y.dropWhile isSpaceJS).reverse.takeWhile isSpaceJS).reverse,
    fun c hc => mem_takeWhile_pred hc,
    fun c hc => mem_takeWhile_pred (List.mem_reverse.mp hc), ?_⟩
  have hmid : trimJS y ++ ((y.dropWhile isSpaceJS).reverse.takeWhile isSpaceJS).reverse
      = y.dropWhile isSpaceJS := by
    unfold trimJS
    rw [← List.reverse_append, List.takeWhile_append_dropWhile, List.reverse_reverse]
  conv_lhs => rw [← List.takeWhile_append_dropWhile isSpaceJS y]
  rw [List.append_assoc, hmid]

theorem dropWhile_head?_false {p : Char → Bool} {l : Str} {d : Char}
    (h : (l.dropWhile p).head? = some d) : p d = false := by
  induction l with
  | nil => cases h
  | cons a rest ih =>
    by_cases ha : p a = true
    · rw [List.dropWhile_cons_of_pos ha] at h
      exact ih h
    · rw [List.dropWhile_cons_of_neg ha] at h
      cases h
      simpa using ha

theorem dropWhile_eq_self_of_head {p : Char → Bool} {l : Str}
    (h : ∀ d, l.head? = some d → p d = false) : l.dropWhile p = l := by
  cases l with
  | nil => rfl
  | cons a rest => exact List.dropWhile_cons_of_neg (by simp [h a rfl])

theorem getLast?_append_right {l1 l2 : Str} (h : l2 ≠ []) :
    (l1 ++ l2).getLast? = l2.getLast? := by
  induction l1 with
  | nil => rfl
  | cons a rest ih =>
    rw [List.cons_append, List.getLast?_cons, ih]
    cases l2 with
    | nil => exact absurd rfl h
    | cons b t =>
      cases hrest : rest ++ b :: t with
      | nil => simp at hrest
      | cons u v => simp [List.getLast?_cons]

theorem trimJS_getLast?_not_space {s : Str} {d : Char}
    (h : (trimJS s).getLast? = some d) : isSpaceJS d = false := by
  unfold trimJS at h
  rw [List.getLast?_reverse] at h
  exact dropWhile_head?_false h

theorem trimJS_head?_not_space {s : Str} {d : Char}
    (h : (trimJS s).head? = some d) : isSpaceJS d = false := by
  unfold trimJS at h
  rw [List.head?_reverse] at h
  have hne : (s.dropWhile isSpaceJS).reverse.dropWhile isSpaceJS ≠ [] := by
    intro he; rw [he] at h; cases h
  have hu : (s.dropWhile isSpaceJS).reverse
      = (s.dropWhile isSpaceJS).reverse.takeWhile isSpaceJS
        ++ (s.dropWhile isSpaceJS).reverse.dropWhile isSpaceJS :=
    (List.takeWhile_append_dropWhile _ _).symm
  rw [← getLast?_append_right hne, ← hu, List.getLast?_reverse] at h
  exact dropWhile_head?_false h

theorem trimJS_idem (s : Str) : trimJS (trimJS s) = trimJS s := by
  have h1 : (trimJS s).dropWhile isSpaceJS = trimJS s :=
    dropWhile_eq_self_of_head (fun d hd => trimJS_head?_not_space hd)
  have h2 : (trimJS s).reverse.dropWhile isSpaceJS = (trimJS s).reverse :=
    dropWhile_eq_self_of_head (fun d hd => by
      rw [List.head?_reverse] at hd
      exact trimJS_getLast?_not_space hd)
  show ((((trimJS s).dropWhile isSpaceJS).reverse.dropWhile isSpaceJS)).reverse = trimJS s
  rw [h1, h2, List.reverse_reverse]

/-! ## C3 — whitespace does not affect the token scan -/

theorem stripTokens_alnum : ∀ t ∈ stripTokens, ∀ c ∈ t,
    (('a' ≤ c && c ≤ 'z') || ('0' ≤ c && c ≤ '9')) = true := by decide

theorem alnum_beq_space {tc w : Char}
    (ha : (('a' ≤ tc && tc ≤ 'z') || ('0' ≤ tc && tc ≤ '9')) = true)
    (hw : isSpaceJS w = true) : (tc == w) = false := by
  cases hbe : tc == w with
  | false => rfl
  | true =>
    rw [beq_iff_eq] at hbe
    subst hbe
    rcases isSpaceJS_cases hw with rfl | rfl | rfl | rfl | rfl | rfl | rfl | rfl <;>
      exact absurd ha (by decide)

theorem tokPrefixCI_cons_space {t s : Str} {w : Char} (ht : t ∈ stripTokens)
    (hw : isSpaceJS w = true) : tokPrefixCI t (w :: s) = false := by
  obtain ⟨tc, ts, rfl⟩ : ∃ tc ts, t = tc :: ts := by
    cases t with
    | nil => exact absurd rfl (stripTokens_ne_nil _ ht)
    | cons a b => exact ⟨a, b, rfl⟩
  have ha := stripTokens_alnum _ ht tc (List.mem_cons_self tc ts)
  simp only [tokPrefixCI, lowerChar_of_space hw,
    alnum_beq_space ha hw, Bool.false_and]

theorem firstTokLen_none_of {toks : List Str} {s : Str}
    (h : ∀ t ∈ toks, tokPrefixCI t s = false) : firstTokLen toks s = none := by
  induction toks with
  | nil => rfl
  | cons t ts ih =>
    simp only [firstTokLen, h t (List.mem_cons_self t ts), Bool.false_and,
      Bool.false_eq_true, if_false]
    exact ih (fun u hu => h u (List.mem_cons_of_mem t hu))

theorem tokAt_cons_space {prev : Option Char} {s : Str} {w : Char}
    (hw : isSpaceJS w = true) : tokAt prev (w :: s) = none := by
  unfold tokAt
  rw [firstTokLen_none_of (fun t ht => tokPrefixCI_cons_space ht hw)]
  simp

theorem stripGo_all_space {w : Str} (hw : ∀ c ∈ w, isSpaceJS c = true) :
    ∀ prev, stripGo prev 0 w = ([], w) := by
  induction w with
  | nil => intro prev; rfl
  | cons c w2 ih =>
    intro prev
    simp only [stripGo, tokAt_cons_space (hw c (List.mem_cons_self c w2))]
    rw [ih (fun d hd => hw d (List.mem_cons_of_mem c hd)) (some c)]

theorem stripGo_congr_prev {p1 p2 : Option Char} {s : Str}
    (h : boundaryOK p1 = boundaryOK p2) : stripGo p1 0 s = stripGo p2 0 s := by
  cases s with
  | nil => rfl
  | cons c rest =>
    have ht : tokAt p1 (c :: rest) = tokAt p2 (c :: rest) := by
      unfold tokAt; rw [h]
    simp only [stripGo]
    rw [ht]

theorem boundaryOK_space {w : Char} (hw : isSpaceJS w = true) :
    boundaryOK (some w) = true := by
  simp [boundaryOK, space_not_word hw]

theorem stripGo_cons_space {prev : Option Char} {s : Str} {w : Char}
    (hw : isSpaceJS w = true) :
    stripGo prev 0 (w :: s) = ((stripGo none 0 s).1, w :: (stripGo none 0 s).2) := by
  simp only [stripGo, tokAt_cons_space hw]
  rw [@stripGo_congr_prev (some w) none s (by rw [boundaryOK_space hw]; rfl)]

theorem stripMatches_dropWhile (y : Str) :
    stripMatches (y.dropWhile isSpaceJS) = stripMatches y := by
  induction y with
  | nil => rfl
  | cons c rest ih =>
    by_cases hc : isSpaceJS c = true
    · rw [List.dropWhile_cons_of_pos hc]
      unfold stripMatches
      rw [stripGo_cons_space hc]
      exact ih
    · rw [List.dropWhile_cons_of_neg (by simpa using hc)]

theorem stripMatches_wsHead {w1 z : Str} (hw : ∀ c ∈ w1, isSpaceJS c = true) :
    stripMatches (w1 ++ z) = stripMatches z := by
  induction w1 with
  | nil => rfl
  | cons c w2 ih =>
    rw [List.cons_append]
    unfold stripMatches
    rw [stripGo_cons_space (hw c (List.mem_cons_self c w2))]
    exact ih (fun d hd => hw d (List.mem_cons_of_mem c hd))

theorem tokPrefixCI_append_ws {t : Str} (ht : t ∈ stripTokens) {w : Str}
    (hw : ∀ c ∈ w, isSpaceJS c = true) :
    ∀ u : Str, tokPrefixCI t (u ++ w) = tokPrefixCI t u := by
  have halnum := stripTokens_alnum t ht
  clear ht
  induction t with
  | nil => intro u; rfl
  | cons tc ts ih =>
    intro u
    cases u with
    | nil =>
      cases w with
      | nil => rfl
      | cons wc w2 =>
        simp only [List.nil_append, tokPrefixCI,
          lowerChar_of_space (hw wc (List.mem_cons_self wc w2)),
          alnum_beq_space (halnum tc (List.mem_cons_self tc ts))
            (hw wc (List.mem_cons_self wc w2)), Bool.false_and]
    | cons uc us =>
      simp only [List.cons_append, tokPrefixCI, List.append_eq]
      rw [ih (fun d hd => halnum d (List.mem_cons_of_mem tc hd)) us]

theorem rightBoundary_append_ws {u w : Str} {n : Nat}
    (hw : ∀ c ∈ w, isSpaceJS c = true) (hn : n ≤ u.length) :
    rightBoundary ((u ++ w).drop n) = rightBoundary (u.drop n) := by
  rw [List.drop_append_of_le_length hn]
  cases hd : u.drop n with
  | nil =>
    cases w with
    | nil => rfl
    | cons wc w2 =>
      simp only [List.nil_append, rightBoundary,
        space_not_word (hw wc (List.mem_cons_self wc w2))]
      rfl
  | cons d t => rfl

theorem firstTokLen_append_ws {u w : Str} (hw : ∀ c ∈ w, isSpaceJS c = true) :
    firstTokLen stripTokens (u ++ w) = firstTokLen stripTokens u := by
  have hgen : ∀ toks, (∀ t ∈ toks, t ∈ stripTokens) →
      firstTokLen toks (u ++ w) = firstTokLen toks u := by
    intro toks htoks
    induction toks with
    | nil => rfl
    | cons t ts ih =>
      have ht := htoks t (List.mem_cons_self t ts)
      simp only [firstTokLen]
      rw [tokPrefixCI_append_ws ht hw u]
      cases hpre : tokPrefixCI t u with
      | false =>
        simp only [Bool.false_and, Bool.false_eq_true, if_false]
        exact ih (fun x hx => htoks x (List.mem_cons_of_mem t hx))
      | true =>
        rw [rightBoundary_append_ws hw (tokPrefixCI_length_le hpre)]
        cases hb : rightBoundary (u.drop t.length) with
        | false =>
          simp only [Bool.true_and, Bool.false_eq_true, if_false]
          exact ih (fun x hx => htoks x (List.mem_cons_of_mem t hx))
        | true => simp
  exact hgen stripTokens (fun t ht => ht)

theorem tokAt_append_ws {prev : Option Char} {u w : Str}
    (hw : ∀ c ∈ w, isSpaceJS c = true) :
    tokAt prev (u ++ w) = tokAt prev u := by
  unfold tokAt
  rw [firstTokLen_append_ws hw]

theorem stripGo_append_ws {w : Str} (hw : ∀ c ∈ w, isSpaceJS c = true) :
    ∀ s : Str, ∀ prev skip, skip ≤ s.length →
      stripGo prev skip (s ++ w)
        = ((stripGo prev skip s).1, (stripGo prev skip s).2 ++ w) := by
  intro s
  induction s with
  | nil =>
    intro prev skip hs
    have h0 : skip = 0 := Nat.le_zero.mp hs
    subst h0
    rw [List.nil_append, stripGo_all_space hw prev]
    rfl
  | cons c rest ih =>
    intro prev skip hs
    cases skip with
    | succ k =>
      simp only [List.cons_append, stripGo, List.append_eq]
      exact ih (some c) k (by simpa using hs)
    | zero =>
      have hk : tokAt prev ((c :: rest) ++ w) = tokAt prev (c :: rest) :=
        tokAt_append_ws hw
      simp only [List.cons_append, stripGo, List.append_eq]
      cases htok : tokAt prev (c :: rest) with
      | some k =>
        have hb := tokAt_bounds htok
        rw [show tokAt prev (c :: (rest ++ w)) = some k from hk.trans htok]
        dsimp only
        have htake : (c :: (rest ++ w)).take k = (c :: rest).take k :=
          List.take_append_of_le_length hb.2
        rw [htake, ih (some c) (k - 1) (by
          simp only [List.length_cons] at hb ⊢
          omega)]
      | none =>
        rw [show tokAt prev (c :: (rest ++ w)) = none from hk.trans htok]
        dsimp only
        rw [ih (some c) 0 (Nat.zero_le _)]
        rfl

theorem stripMatches_append_ws {s w : Str} (hw : ∀ c ∈ w, isSpaceJS c = true) :
    stripMatches (s ++ w) = stripMatches s := by
  unfold stripMatches
  rw [stripGo_append_ws hw s none 0 (Nat.zero_le _)]

theorem stripMatches_trimJS (y : Str) : stripMatches (trimJS y) = stripMatches y := by
  obtain ⟨w1, w2, hw1, hw2, hy⟩ := trimJS_decomp y
  conv_rhs => rw [hy]
  rw [List.append_assoc, stripMatches_wsHead hw1, stripMatches_append_ws hw2]

/-! ## C3 — NFKC commutes with trimming -/

theorem nfkc_trimJS (x : Str) : nfkc (trimJS x) = trimJS (nfkc x) := by
  have hcomp : (isSpaceJS ∘ nfkcChar) = isSpaceJS := funext isSpaceJS_nfkcChar
  unfold nfkc trimJS
  rw [List.dropWhile_map, hcomp, ← List.map_reverse, List.dropWhile_map, hcomp,
    ← List.map_reverse]

/-! ## C3 — when cleanup produces the empty string -/

theorem mem_collapseGo_of_not_space {s : Str} {c : Char} (hns : isSpaceJS c = false) :
    ∀ b, c ∈ s → c ∈ collapseGo b s := by
  induction s with
  | nil => intro b hc; cases hc
  | cons a rest ih =>
    intro b hc
    simp only [collapseGo]
    by_cases ha : isSpaceJS a = true
    · have hmem : c ∈ rest := by
        rcases List.mem_cons.mp hc with rfl | hm
        · rw [hns] at ha; cases ha
        · exact hm
      rw [if_pos ha]
      cases b with
      | true => exact ih true hmem
      | false => exact List.mem_cons_of_mem ' ' (ih true hmem)
    · rw [if_neg ha]
      rcases List.mem_cons.mp hc with rfl | hm
      · exact List.mem_cons_self c _
      · exact List.mem_cons_of_mem a (ih false hm)

theorem cleanup_nil_forward {z : Str} (h : cleanupName z = []) :
    ∀ c ∈ dropBrackets z, isWordChar c = false := by
  intro c hc
  cases hw : isWordChar c with
  | false => rfl
  | true =>
    exfalso
    have h1 : c ∈ dropLeadingNonWord (dropBrackets z) :=
      mem_dropWhile_of_pred_false hc (by rw [hw]; rfl)
    have h2 : c ∈ collapseWs (dropLeadingNonWord (dropBrackets z)) :=
      mem_collapseGo_of_not_space (word_not_space hw) false h1
    have h3 : c ∈ cleanupName z := mem_trimJS_of_not_space h2 (word_not_space hw)
    rw [h] at h3
    cases h3

theorem cleanup_nil_backward {z : Str}
    (h : ∀ c ∈ dropBrackets z, isWordChar c = false) : cleanupName z = [] := by
  have he : dropLeadingNonWord (dropBrackets z) = [] := by
    unfold dropLeadingNonWord
    rw [List.dropWhile_eq_nil_iff]
    intro c hc
    rw [h c hc]
    rfl
  unfold cleanupName
  rw [he]
  rfl

theorem mem_dropBrackets_trimJS {y : Str} {c : Char}
    (h : c ∈ dropBrackets (trimJS y)) : c ∈ dropBrackets y := by
  unfold dropBrackets at h ⊢
  rw [List.mem_filter] at h ⊢
  exact ⟨mem_of_mem_trimJS h.1, h.2⟩

theorem noWsRun_tail {c : Char} {rest : Str} (h : noWsRun (c :: rest) = true) :
    noWsRun rest = true := by
  simp only [noWsRun] at h
  by_cases hc : isSpaceJS c = true
  · rw [if_pos hc] at h
    simp only [Bool.and_eq_true] at h
    exact h.2
  · rwa [if_neg hc] at h

theorem collapseGo_true_shape (rest : Str) :
    collapseGo true rest = [] ∨
      ∃ d t, collapseGo true rest = d :: t ∧ isSpaceJS d = false := by
  induction rest with
  | nil => exact Or.inl rfl
  | cons d r2 ih =>
    simp only [collapseGo]
    by_cases hd : isSpaceJS d = true
    · rw [if_pos hd]
      exact ih
    · rw [if_neg hd]
      exact Or.inr ⟨d, collapseGo false r2, rfl, by simpa using hd⟩

theorem noWsRun_collapseGo (s : Str) : ∀ b, noWsRun (collapseGo b s) = true := by
  induction s with
  | nil => intro b; rfl
  | cons c rest ih =>
    intro b
    simp only [collapseGo]
    by_cases hc : isSpaceJS c = true
    · rw [if_pos hc]
      cases b with
      | true => exact ih true
      | false =>
        simp only [Bool.false_eq_true, if_false]
        show noWsRun (' ' :: collapseGo true rest) = true
        simp only [noWsRun]
        rw [if_pos (by decide)]
        rcases collapseGo_true_shape rest with hnil | ⟨d, t, heq, hd⟩
        · rw [hnil]; decide
        · rw [heq]
          simp only [noWsRun]
          have h1 : noWsRun (d :: t) = true := heq ▸ ih true
          have h2 : noWsRun t = true := noWsRun_tail h1
          simp [hd, h2]
    · rw [if_neg hc]
      show noWsRun (c :: collapseGo false rest) = true
      simp only [noWsRun]
      rw [if_neg hc]
      exact ih false

theorem noWsRun_dropHead {q : Str} : ∀ p, noWsRun (p ++ q) = true → noWsRun q = true := by
  intro p
  induction p with
  | nil => exact fun h => h
  | cons c r ih => exact fun h => ih (noWsRun_tail h)

theorem noWsRun_append_left {q : Str} : ∀ p, noWsRun (p ++ q) = true → noWsRun p = true := by
  intro p
  induction p with
  | nil => intro _; rfl
  | cons c r ih =>
    intro h
    simp only [List.cons_append, noWsRun] at h ⊢
    by_cases hc : isSpaceJS c = true
    · rw [if_pos hc] at h ⊢
      simp only [Bool.and_eq_true] at h
      obtain ⟨⟨h1, h2⟩, h3⟩ := h
      have hr : noWsRun r = true := ih h3
      cases r with
      | nil =>
        simp [h1]
        rfl
      | cons d t =>
        have hd : isSpaceJS d = false := by simpa using h2
        simp [h1, hr, hd]
    · rw [if_neg hc] at h ⊢
      exact ih h

theorem collapseGo_eq_self {s : Str} (h : noWsRun s = true) :
    collapseGo false s = s ∧
      ((∀ d, s.head? = some d → isSpaceJS d = false) → collapseGo true s = s) := by
  induction s with
  | nil => exact ⟨rfl, fun _ => rfl⟩
  | cons c rest ih =>
    simp only [noWsRun] at h
    by_cases hc : isSpaceJS c = true
    · rw [if_pos hc] at h
      simp only [Bool.and_eq_true] at h
      obtain ⟨⟨hsp, hnext⟩, hrest⟩ := h
      have hceq : c = ' ' := by simpa using hsp
      have htrue : collapseGo true rest = rest := by
        rcases ih hrest with ⟨_, h2⟩
        refine h2 ?_
        intro d hd
        cases rest with
        | nil => cases hd
        | cons d0 t =>
          cases hd
          simpa using hnext
      constructor
      · subst hceq
        simp only [collapseGo, if_pos hc, Bool.false_eq_true, if_false, htrue]
      · intro hhead
        exact absurd (hhead c rfl) (by rw [hc]; simp)
    · rw [if_neg hc] at h
      rcases ih h with ⟨h1, _⟩
      constructor
      · simp only [collapseGo, if_neg hc, h1]
      · intro _
        simp only [collapseGo, if_neg hc, h1]

theorem getLast?_dropWhile_ne_nil {p : Char → Bool} {l : Str}
    (h : l.dropWhile p ≠ []) : (l.dropWhile p).getLast? = l.getLast? := by
  conv_rhs => rw [← List.takeWhile_append_dropWhile p l]
  rw [getLast?_append_right h]

theorem noWsRun_trimJS {f : Str} (h : noWsRun f = true) : noWsRun (trimJS f) = true := by
  obtain ⟨w1, w2, _, _, hf⟩ := trimJS_decomp f
  rw [hf] at h
  rw [List.append_assoc] at h
  exact noWsRun_append_left _ (noWsRun_dropHead w1 h)

theorem cleanupName_head_word {z : Str} {d : Char}
    (h : (cleanupName z).head? = some d) : isWordChar d = true := by
  cases he : dropLeadingNonWord (dropBrackets z) with
  | nil =>
    have : cleanupName z = [] := by
      unfold cleanupName
      rw [he]
      rfl
    rw [this] at h
    cases h
  | cons he0 te =>
    have hword : isWordChar he0 = true := by
      have hh : (dropLeadingNonWord (dropBrackets z)).head? = some he0 := by
        rw [he]; rfl
      have := dropWhile_head?_false hh
      simpa using this
    have hnspace : isSpaceJS he0 = false := word_not_space hword
    have hf : collapseWs (dropLeadingNonWord (dropBrackets z))
        = he0 :: collapseGo false te := by
      rw [he]
      simp only [collapseWs, collapseGo, hnspace, Bool.false_eq_true, if_false]
    have hb : cleanupName z = trimJS (he0 :: collapseGo false te) := by
      unfold cleanupName
      rw [hf]
    rw [hb] at h
    have hu : (he0 :: collapseGo false te).dropWhile isSpaceJS
        = he0 :: collapseGo false te :=
      List.dropWhile_cons_of_neg (by rw [hnspace]; simp)
    unfold trimJS at h
    rw [hu] at h
    have hne : (he0 :: collapseGo false te).reverse.dropWhile isSpaceJS ≠ [] := by
      intro h0
      rw [h0] at h
      cases h
    rw [List.head?_reverse, getLast?_dropWhile_ne_nil hne, List.getLast?_reverse] at h
    cases h
    exact hword

theorem cleanupName_idem (z : Str) : cleanupName (cleanupName z) = cleanupName z := by
  cases hb : (cleanupName z).head? with
  | none =>
    have hnil : cleanupName z = [] := by
      cases hc : cleanupName z with
      | nil => rfl
      | cons a t => rw [hc] at hb; cases hb
    rw [hnil]
    rfl
  | some d =>
    have hword := cleanupName_head_word hb
    -- brackets: every character of the cleaned name is a space or survived
    -- the bracket filter
    have hbra : dropBrackets (cleanupName z) = cleanupName z := by
      unfold dropBrackets
      rw [List.filter_eq_self]
      intro c hc
      have hc1 : c ∈ collapseWs (dropLeadingNonWord (dropBrackets z)) :=
        mem_of_mem_trimJS hc
      rcases mem_collapseGo false c hc1 with rfl | hc2
      · decide
      · have hc3 : c ∈ dropBrackets z := mem_of_mem_dropWhile hc2
        unfold dropBrackets at hc3
        exact (List.mem_filter.mp hc3).2
    have hlead : dropLeadingNonWord (cleanupName z) = cleanupName z := by
      unfold dropLeadingNonWord
      refine dropWhile_eq_self_of_head ?_
      intro d0 hd0
      rw [hb] at hd0
      cases hd0
      rw [hword]
      rfl
    have hcol : collapseWs (cleanupName z) = cleanupName z := by
      have hrun : noWsRun (cleanupName z) = true :=
        noWsRun_trimJS (noWsRun_collapseGo _ false)
      exact (collapseGo_eq_self hrun).1
    have htrim : trimJS (cleanupName z) = cleanupName z := by
      show trimJS (trimJS (collapseWs (dropLeadingNonWord (dropBrackets z))))
        = cleanupName z
      rw [trimJS_idem]
      rfl
    show trimJS (collapseWs (dropLeadingNonWord (dropBrackets (cleanupName z))))
      = cleanupName z
    rw [hbra, hlead, hcol, htrim]

/-- C3 counterexample: bracket removal can synthesize a fresh quality token
(`"x h(d) y"` cleans to `"x hd y"`), so a second normalization pass strips
again and the base name changes (`"x y"`). -/
theorem c3_idempotence_cex :
    (parseChannelInfo ((parseChannelInfo (str "x h(d) y")).1)).1
      ≠ (parseChannelInfo (str "x h(d) y")).1 := by decide

/-- C3 (amended): name normalization is idempotent on every input whose
first-pass base name contains no further strippable token occurrence — the
counterexample's failure mode, a token synthesized by cleanup, is the only
one: when `stripRegex` finds nothing in the (NFKC image of the) cleaned
base name, a second pass returns it unchanged. -/
theorem c3_normalize_idempotent (x : Str)
    (h : stripMatches (nfkc (parseChannelInfo x).1) = []) :
    (parseChannelInfo ((parseChannelInfo x).1)).1 = (parseChannelInfo x).1 := by
  by_cases hcl : cleanupName (stripRemove (nfkc x)) = []
  · have hb : (parseChannelInfo x).1 = trimJS x := by
      simp [parseChannelInfo, hcl]
    rw [hb] at h ⊢
    have hx0 : stripMatches (nfkc x) = [] := by
      rw [nfkc_trimJS, stripMatches_trimJS] at h
      exact h
    have hrem : stripRemove (nfkc x) = nfkc x := stripGo_nil_matches none hx0
    rw [hrem] at hcl
    have hnw : ∀ c ∈ dropBrackets (nfkc x), isWordChar c = false :=
      cleanup_nil_forward hcl
    have hrem2 : stripRemove (nfkc (trimJS x)) = nfkc (trimJS x) :=
      stripGo_nil_matches none h
    have hnw2 : ∀ c ∈ dropBrackets (nfkc (trimJS x)), isWordChar c = false := by
      intro c hc
      rw [nfkc_trimJS] at hc
      exact hnw c (mem_dropBrackets_trimJS hc)
    have hcl2 : cleanupName (stripRemove (nfkc (trimJS x))) = [] := by
      rw [hrem2]
      exact cleanup_nil_backward hnw2
    simp [parseChannelInfo, hcl2, trimJS_idem]
  · have hb : (parseChannelInfo x).1 = cleanupName (stripRemove (nfkc x)) := by
      simp [parseChannelInfo, hcl]
    rw [hb] at h ⊢
    have hfix : nfkc (cleanupName (stripRemove (nfkc x)))
        = cleanupName (stripRemove (nfkc x)) := by
      apply nfkc_eq_self
      intro c hc
      have hc1 := mem_of_mem_trimJS hc
      rcases mem_collapseGo false c hc1 with rfl | hc2
      · decide
      · have hc3 := mem_of_mem_dropWhile hc2
        have hc4 : c ∈ stripRemove (nfkc x) := by
          unfold dropBrackets at hc3
          exact (List.mem_filter.mp hc3).1
        have hc5 : c ∈ nfkc x := mem_stripGo_removed none 0 c hc4
        exact mem_nfkc_fixed hc5
    rw [hfix] at h
    have hrem : stripRemove (cleanupName (stripRemove (nfkc x)))
        = cleanupName (stripRemove (nfkc x)) :=
      stripGo_nil_matches none h
    have hclean := cleanupName_idem (stripRemove (nfkc x))
    simp [parseChannelInfo, hfix, hrem, hclean, hcl]

/-- Witness for C3: the amended idempotence at the cleaned Sky Sports name. -/
theorem c3_normalize_idempotent_witness :
    (parseChannelInfo ((parseChannelInfo (str "Sky Sports FHD")).1)).1
      = (parseChannelInfo (str "Sky Sports FHD")).1 :=
  c3_normalize_idempotent (str "Sky Sports FHD") (by decide)

end IPTV
